import Mathlib

/-!
# Verification of the moxie-native layout engine (`src/layout/mod.rs`)

A shallow embedding of the layout module: the greedy text fitter
(`TextLayoutInfo::fill_line`), the inline line-breaking state machine
(`LineState`), the block stacking algorithm (`calc_block_layout`), and the
memoization key (`BlockLayoutInputs::eq`).

Scalar values that the Rust code stores as `f32` are modelled as rationals
(`ℚ`): the claims under verification are structural/algebraic and do not
concern floating-point rounding.

External collaborators are modelled abstractly, following the spec's
contracts for them:
* the text shaping service and the word-break segmentation
  (`crate::util::word_break_iter`, not part of the sources under
  verification) are modelled by representing a text as a list of segments,
  each carrying its byte length, a whitespace flag, and its shaped glyphs;
  each glyph carries the cumulative x-extent of its word prefix (`newX`,
  the `glyph.offset.x + advance` quantity computed in `fill_line`) and the
  line-height/ascent metrics of its run;
* a Rust `Rc<LayoutTreeNode>` is modelled as a record holding the address
  of the `Rc` handle itself (`addr`), the address of the pointed-to
  allocation (`obj`), and the pointed-to value (`node`).
-/

namespace MoxieLayout

/-- 2-D size in logical pixels (`LogicalSize`). -/
structure LogicalSize where
  width : ℚ
  height : ℚ
deriving DecidableEq

/-- 2-D point in logical pixels (`LogicalPoint`). -/
structure LogicalPoint where
  x : ℚ
  y : ℚ
deriving DecidableEq

/-- Four-sided offsets in logical pixels (`LogicalSideOffsets`). -/
structure LogicalSideOffsets where
  top : ℚ
  right : ℚ
  bottom : ℚ
  left : ℚ
deriving DecidableEq

/-- `SideOffsets2D::horizontal`: left + right. -/
def LogicalSideOffsets.horizontal (o : LogicalSideOffsets) : ℚ := o.left + o.right

/-- `SideOffsets2D::vertical`: top + bottom. -/
def LogicalSideOffsets.vertical (o : LogicalSideOffsets) : ℚ := o.top + o.bottom

/-- `LogicalSideOffsets::default()`: all-zero offsets. -/
def sideOffsetsZero : LogicalSideOffsets := ⟨0, 0, 0, 0⟩

/-- One shaped glyph, as consumed by `fill_line`: `newX` is the
`glyph.offset.x + advance / units_per_px` extent of the word prefix up to
and including this glyph (relative to the word start), and `lineHeight` /
`ascent` are the scaled metrics of the run the glyph belongs to. -/
structure GlyphInfo where
  newX : ℚ
  lineHeight : ℚ
  ascent : ℚ
deriving DecidableEq

/-- Modelled from the spec: one segment produced by the locale-agnostic
word-break segmentation (`crate::util::word_break_iter`, whose source is
not under verification) together with its shaped glyphs. `len` is the
segment's byte length in the original string, `ws` marks a run of
whitespace characters. -/
structure Seg where
  len : Nat
  ws : Bool
  glyphs : List GlyphInfo
deriving DecidableEq

/-- Total byte length of a list of segments (`str::len` of the text they
cover). -/
def bytesOf (segs : List Seg) : Nat := (segs.map Seg.len).sum

/-- The suffix of a segmented text starting at byte offset `o`
(`&text[o..]`). An offset inside a segment keeps the remainder of that
segment; the offsets actually produced by the engine always fall on
segment boundaries. -/
def segsFrom : List Seg → Nat → List Seg
  | segs, 0 => segs
  | [], _ + 1 => []
  | s :: rest, o + 1 =>
    if o + 1 < s.len then ⟨s.len - (o + 1), s.ws, s.glyphs⟩ :: rest
    else segsFrom rest (o + 1 - s.len)

/-- The prefix of a segmented text covering `n` bytes (`&text[..n]`). -/
def takeBytes : List Seg → Nat → List Seg
  | _, 0 => []
  | [], _ + 1 => []
  | s :: rest, n + 1 =>
    if s.len ≤ n + 1 then s :: takeBytes rest (n + 1 - s.len)
    else [⟨n + 1, s.ws, s.glyphs⟩]

/-- The slice `&text[start..stop]` of a segmented text. -/
def sliceSegs (segs : List Seg) (start stop : Nat) : List Seg :=
  takeBytes (segsFrom segs start) (stop - start)

/-- Byte length of the leading run of whitespace segments. -/
def leadingWsLen : List Seg → Nat
  | [] => 0
  | s :: rest => if s.ws then s.len + leadingWsLen rest else 0

/-- `o` is a segment boundary of the text (0, or the end of a whole number
of leading segments). -/
def validOffset : List Seg → Nat → Bool
  | _, 0 => true
  | [], _ + 1 => false
  | s :: rest, o + 1 =>
    if s.len ≤ o + 1 then validOffset rest (o + 1 - s.len) else false

/-- `TextLayoutInfo`: a text run pending layout (text, font size, max
width captured at collection time). -/
structure TextLayoutInfo where
  text : List Seg
  size : ℚ
  max_width : ℚ
deriving DecidableEq

/-- `TextLayoutInfo::advance_past_whitespace`: the byte offset of the
first non-whitespace character at or after `offset`
(`self.text[offset..].trim_start()` pointer arithmetic). -/
def TextLayoutInfo.advance_past_whitespace (t : TextLayoutInfo) (offset : Nat) : Nat :=
  offset + leadingWsLen (segsFrom t.text offset)

/-- The inner per-glyph loop of `fill_line` for one word: starting from the
committed extent `lwX` of the previous words, walk the word's glyphs; if
`last_word_x + new_x > width` the fitter returns the committed tuple
(modelled as `none`), otherwise the running `(x, height, ascender)` are
updated. -/
def processGlyphs (width lwX : ℚ) : List GlyphInfo → ℚ → ℚ → ℚ → Option (ℚ × ℚ × ℚ)
  | [], x, h, a => some (x, h, a)
  | g :: gs, _x, h, a =>
    if width < lwX + g.newX then none
    else processGlyphs width lwX gs (lwX + g.newX) (max h g.lineHeight) (max a g.ascent)

/-- The word loop of `fill_line`. `pos` is the absolute byte position of
the current word's start in the full text; the committed consumed length
is `pos' - offset`, exactly as the Rust computes `end - offset`. The
accumulators `(x, h, a)` and the committed tuple
`(lwEnd, lwX, lwH, lwA)` mirror `x`/`height`/`ascender` and the
`last_word_*` variables. -/
def fillLineAux (width : ℚ) (offset : Nat) :
    List Seg → Nat → ℚ → ℚ → ℚ → Nat → ℚ → ℚ → ℚ → Nat × ℚ × ℚ × ℚ
  | [], _, _, _, _, lwEnd, lwX, lwH, lwA => (lwEnd, lwX, lwH, lwA)
  | s :: rest, pos, x, h, a, lwEnd, lwX, lwH, lwA =>
    match processGlyphs width lwX s.glyphs x h a with
    | none => (lwEnd, lwX, lwH, lwA)
    | some (x', h', a') =>
      fillLineAux width offset rest (pos + s.len) x' h' a' (pos + s.len - offset) x' h' a'

/-- `TextLayoutInfo::fill_line`: greedily fit whole words of
`self.text[offset..]` into `width`; returns
(consumed byte length, measured width, line height, ascent). -/
def TextLayoutInfo.fill_line (t : TextLayoutInfo) (width : ℚ) (offset : Nat) :
    Nat × ℚ × ℚ × ℚ :=
  fillLineAux width offset (segsFrom t.text offset) offset 0 0 0 0 0 0 0

/-- Specification-side measurement of one word's glyphs with no width
cutoff: the same update as `processGlyphs` but total. -/
def measureGlyphs (lwX : ℚ) : List GlyphInfo → ℚ → ℚ → ℚ → ℚ × ℚ × ℚ
  | [], x, h, a => (x, h, a)
  | g :: gs, _x, h, a =>
    measureGlyphs lwX gs (lwX + g.newX) (max h g.lineHeight) (max a g.ascent)

/-- Specification-side measurement of a run of whole words with no width
cutoff: final extent, max line height, max ascent. -/
def measureSegs : List Seg → ℚ → ℚ → ℚ → ℚ × ℚ × ℚ
  | [], x, h, a => (x, h, a)
  | s :: rest, x, h, a =>
    let m := measureGlyphs x s.glyphs x h a
    measureSegs rest m.1 m.2.1 m.2.2

/-- Well-shaped glyph list: non-empty, non-negative extents, extents
non-decreasing along the word (left-to-right text). -/
def glyphsWF : List GlyphInfo → Bool
  | [] => false
  | [g] => decide (0 ≤ g.newX)
  | g₁ :: g₂ :: gs => decide (0 ≤ g₁.newX) && decide (g₁.newX ≤ g₂.newX) && glyphsWF (g₂ :: gs)

/-- Well-shaped text: every segment's glyph list is well-shaped. -/
def segsWF (segs : List Seg) : Bool := segs.all fun s => glyphsWF s.glyphs

/-- `LayoutText`: the rendered-text payload handed to the painter (a piece
of the text plus its font size). -/
structure LayoutText where
  text : List Seg
  size : ℚ
deriving DecidableEq

mutual

/-- `LayoutTreeNode`: one immutable node of the layout tree (computed
size, margin for the parent's consumption, optional rendered text,
positioned children). -/
inductive LayoutTreeNode : Type where
  | mk : LogicalSize → LogicalSideOffsets → Option LayoutText → List LayoutChild → LayoutTreeNode

/-- `LayoutChild`: (source child index, position relative to the parent's
content box, child layout node). -/
inductive LayoutChild : Type where
  | mk : Nat → LogicalPoint → LayoutTreeNode → LayoutChild

end

/-- Field `size` of `LayoutTreeNode`. -/
def LayoutTreeNode.size : LayoutTreeNode → LogicalSize
  | .mk s _ _ _ => s

/-- Field `margin` of `LayoutTreeNode`. -/
def LayoutTreeNode.margin : LayoutTreeNode → LogicalSideOffsets
  | .mk _ m _ _ => m

/-- Field `render_text` of `LayoutTreeNode`. -/
def LayoutTreeNode.render_text : LayoutTreeNode → Option LayoutText
  | .mk _ _ r _ => r

/-- Field `children` of `LayoutTreeNode`. -/
def LayoutTreeNode.children : LayoutTreeNode → List LayoutChild
  | .mk _ _ _ c => c

/-- Field `index` of `LayoutChild`. -/
def LayoutChild.index : LayoutChild → Nat
  | .mk i _ _ => i

/-- Field `position` of `LayoutChild`. -/
def LayoutChild.position : LayoutChild → LogicalPoint
  | .mk _ p _ => p

/-- Field `layout` of `LayoutChild`. -/
def LayoutChild.layout : LayoutChild → LayoutTreeNode
  | .mk _ _ l => l

/-- Modelled from the spec: the block stacking direction
(`style::Direction`, whose source is not under verification). -/
inductive Direction : Type where
  | Vertical
  | Horizontal
deriving DecidableEq

/-- Modelled from the spec: the resolved style of a block element
(`style::BlockValues`, whose source is not under verification): stacking
direction, optional explicit width/height, margin and padding. -/
structure BlockValues where
  direction : Direction
  width : Option ℚ
  height : Option ℚ
  margin : LogicalSideOffsets
  padding : LogicalSideOffsets
deriving DecidableEq

/-- A Rust `Rc<LayoutTreeNode>` stored in a `Vec`: `addr` is the address
of the `Rc` handle itself (the `Vec` slot), `obj` the address of the
pointed-to allocation, `node` the pointed-to value. Two handles denote the
same underlying object exactly when their `obj` fields agree; `ptr::eq`
applied to the two `&Rc` references compares their `addr` fields. -/
structure RcChild where
  addr : Nat
  obj : Nat
  node : LayoutTreeNode

/-- `BlockLayoutInputs`: the memoization cache key (style values plus the
children's already-computed layout results). -/
structure BlockLayoutInputs where
  values : BlockValues
  children : List RcChild

/-- `BlockLayoutInputs::eq` (the `PartialEq` impl): style values
structurally equal, child-list lengths equal, and `ptr::eq(a, b)` for each
zipped pair `(a, b) : (&Rc<LayoutTreeNode>, &Rc<LayoutTreeNode>)` — which
compares the addresses of the `Rc` handles stored in the two vectors, not
the pointed-to allocations. -/
def BlockLayoutInputs.beq (a b : BlockLayoutInputs) : Bool :=
  if a.values ≠ b.values then false
  else if a.children.length ≠ b.children.length then false
  else (a.children.zip b.children).all fun p => p.1.addr == p.2.addr

/-- The cache-key equality the spec describes: style values structurally
equal, same child-list length, and pairwise identity (same underlying
object) of each child reference. -/
def specKeyEq (a b : BlockLayoutInputs) : Bool :=
  decide (a.values = b.values) && a.children.length == b.children.length &&
    ((a.children.zip b.children).all fun p => p.1.obj == p.2.obj)

/-- A memoization cell: the stored key and the stored result, the latter
modelled with the address of its `Rc` allocation. -/
structure MemoCell where
  key : BlockLayoutInputs
  resultObj : Nat
  result : LayoutTreeNode

/-- The margin-inclusive size of an already-laid-out child, as computed at
the top of the loop in `calc_block_layout`
(`child.size + size2(child.margin.horizontal(), child.margin.vertical())`). -/
def effSize (n : LayoutTreeNode) : LogicalSize :=
  ⟨n.size.width + n.margin.horizontal, n.size.height + n.margin.vertical⟩

/-- The child-placement loop of `calc_block_layout`: walks the children in
order carrying the enumeration index, the running cross-axis max and
main-axis total (`width`, `height`), and the accumulated positioned
children. -/
def calcChildrenAux (values : BlockValues) :
    List RcChild → Nat → ℚ → ℚ → List LayoutChild → ℚ × ℚ × List LayoutChild
  | [], _, width, height, acc => (width, height, acc)
  | c :: rest, index, width, height, acc =>
    let sz := effSize c.node
    match values.direction with
    | .Vertical =>
      calcChildrenAux values rest (index + 1) (max width sz.width) (height + sz.height)
        (acc ++ [.mk index ⟨values.padding.left, height + values.padding.top⟩ c.node])
    | .Horizontal =>
      calcChildrenAux values rest (index + 1) (width + sz.width) (max height sz.height)
        (acc ++ [.mk index ⟨width + values.padding.left, values.padding.top⟩ c.node])

/-- `calc_block_layout`: stack the already-laid-out children along the
styled axis, add padding to the content size, then override either axis
with an explicit width/height when present; the node carries the style's
margin and no rendered text. -/
def calc_block_layout (input : BlockLayoutInputs) : LayoutTreeNode :=
  let r := calcChildrenAux input.values input.children 0 0 0 []
  let size0 : LogicalSize :=
    ⟨r.1 + input.values.padding.horizontal, r.2.1 + input.values.padding.vertical⟩
  let size1 := match input.values.width with
    | some w => { size0 with width := w }
    | none => size0
  let size2 := match input.values.height with
    | some h => { size1 with height := h }
    | none => size1
  .mk size2 input.values.margin none r.2.2

/-- `moxie::memo!` specialised to `calc_block_layout`: if a cell is cached
and its key compares equal (by `BlockLayoutInputs::eq`) to the new input,
the stored result — the same `Rc` allocation — is returned; otherwise the
function runs and its result lives at a fresh allocation `freshObj`. -/
def memoBlock (cache : Option MemoCell) (input : BlockLayoutInputs) (freshObj : Nat) :
    MemoCell :=
  match cache with
  | some cell =>
    if BlockLayoutInputs.beq cell.key input then cell
    else ⟨input, freshObj, calc_block_layout input⟩
  | none => ⟨input, freshObj, calc_block_layout input⟩

/-- `LineItem`: a pending (not yet positioned) item of the current line. -/
structure LineItem where
  ascender : ℚ
  index : Nat
  x : ℚ
  layout : LayoutTreeNode

/-- `LineState`: the inline engine's packing state. -/
structure LineState where
  children : List LayoutChild
  max_width : ℚ
  x : ℚ
  height : ℚ
  line_height : ℚ
  line_ascender : ℚ
  longest_line : ℚ
  line_items : List LineItem

/-- `LineState::carriage_return`: flush the pending line — every pending
item becomes a `LayoutChild` at `(item.x, height + line_ascender -
item.ascender)`; then the accumulated height grows by `line_height`, the
longest-line width absorbs the cursor, and cursor/line metrics reset. -/
def LineState.carriage_return (s : LineState) : LineState :=
  { s with
    children := s.children ++ s.line_items.map fun it =>
      .mk it.index ⟨it.x, s.height + s.line_ascender - it.ascender⟩ it.layout,
    height := s.height + s.line_height,
    longest_line := max s.longest_line s.x,
    x := 0,
    line_height := 0,
    line_ascender := 0,
    line_items := [] }

/-- `LineState::insert_block_item`: wrap first when the box does not fit,
then buffer the box at the cursor with its full height recorded as its
ascender, advance the cursor by its width, and raise the line height (the
line ascender is left unchanged). -/
def LineState.insert_block_item (s : LineState) (index : Nat) (layout : LayoutTreeNode) :
    LineState :=
  let size := layout.size
  let s₁ := if s.max_width < s.x + size.width then s.carriage_return else s
  { s₁ with
    line_items := s₁.line_items ++ [⟨size.height, index, s₁.x, layout⟩],
    x := s₁.x + size.width,
    line_height := max s₁.line_height size.height }

/-- The common tail of one iteration of the `insert_inline_item` loop:
buffer the fitted fragment `[start..stop]` as a pending line item at the
cursor, advance the cursor by the fragment's width, and raise the line
height and line ascender. -/
def pushFragment (t : TextLayoutInfo) (index : Nat) (s : LineState)
    (start stop : Nat) (width lh asc : ℚ) : LineState :=
  { s with
    line_items := s.line_items ++
      [⟨asc, index, s.x,
        .mk ⟨width, lh⟩ sideOffsetsZero (some ⟨sliceSegs t.text start stop, t.size⟩) []⟩],
    x := s.x + width,
    line_height := max s.line_height lh,
    line_ascender := max s.line_ascender asc }

/-- One iteration of the `insert_inline_item` loop body: fit against the
remaining width; on a zero-word fit, flush the line, skip leading
whitespace and retry at full width; if that also fits zero words,
force-fit against the effectively unbounded width `99999999`. Returns the
new state and the new offset. -/
def inlineBodyStep (t : TextLayoutInfo) (index : Nat) (s : LineState) (offset : Nat) :
    LineState × Nat :=
  let remaining := s.max_width - s.x
  let r := t.fill_line remaining offset
  if r.1 = 0 then
    let s₁ := s.carriage_return
    let o₁ := t.advance_past_whitespace offset
    let r₂ := t.fill_line s.max_width o₁
    if r₂.1 = 0 then
      let r₃ := t.fill_line 99999999 o₁
      (pushFragment t index s₁ o₁ (o₁ + r₃.1) r₃.2.1 r₃.2.2.1 r₃.2.2.2, o₁ + r₃.1)
    else
      (pushFragment t index s₁ o₁ (o₁ + r₂.1) r₂.2.1 r₂.2.2.1 r₂.2.2.2, o₁ + r₂.1)
  else
    (pushFragment t index s offset (offset + r.1) r.2.1 r.2.2.1 r.2.2.2, offset + r.1)

/-- The `while offset < text.text.len()` loop of `insert_inline_item`,
with explicit fuel; `LineState.insert_inline_item` supplies enough fuel
for the loop to run to completion on well-shaped text. -/
def insertInlineAux (t : TextLayoutInfo) (index : Nat) :
    Nat → LineState → Nat → LineState × Nat
  | 0, s, offset => (s, offset)
  | fuel + 1, s, offset =>
    if offset < bytesOf t.text then
      let r := inlineBodyStep t index s offset
      insertInlineAux t index fuel r.1 r.2
    else (s, offset)

/-- `LineState::insert_inline_item`: pack a text item into lines,
repeatedly fitting as many whole words as possible. -/
def LineState.insert_inline_item (s : LineState) (index : Nat) (t : TextLayoutInfo) :
    LineState :=
  (insertInlineAux t index (bytesOf t.text + 1) s 0).1

/-- `InlineLayoutItem`: one flattened inline item — an atomic block box or
a text run. -/
inductive InlineLayoutItem : Type where
  | Block : Nat → LayoutTreeNode → InlineLayoutItem
  | Text : Nat → TextLayoutInfo → InlineLayoutItem

/-- The fresh `LineState` built in `layout_inline`. -/
def initialLineState (maxWidth : ℚ) : LineState :=
  ⟨[], maxWidth, 0, 0, 0, 0, 0, []⟩

/-- The packing phase of `layout_inline` (the collection phase is modelled
as the given item list): feed every item to the line state in source
order, flush the last line, and build a node sized
(longest line, accumulated height) with no margin and no rendered text. -/
def layout_inline (maxWidth : ℚ) (items : List InlineLayoutItem) : LayoutTreeNode :=
  let s := (items.foldl
    (fun s item =>
      match item with
      | .Block index layout => s.insert_block_item index layout
      | .Text index text => s.insert_inline_item index text)
    (initialLineState maxWidth)).carriage_return
  .mk ⟨s.longest_line, s.height⟩ sideOffsetsZero none s.children

/-- The `DynamicNode::Text` branch of `layout_block`: a text leaf directly
under a block element is measured in one call against the effectively
unbounded width `999999` with offset 0, and becomes a leaf node carrying
the full text, the default (zero) margin, and no children. -/
def layoutTextLeaf (textSize maxWidth : ℚ) (text : List Seg) : LayoutTreeNode :=
  let t : TextLayoutInfo := ⟨text, textSize, maxWidth⟩
  let r := t.fill_line 999999 0
  .mk ⟨r.2.1, r.2.2.1⟩ sideOffsetsZero (some ⟨t.text, t.size⟩) []

/-- Modelled from the spec: the text whose segments are the suffix of
`t`'s segments from byte offset `i` ("the suffix of the text starting at
i"), with the same font size and max width. -/
def TextLayoutInfo.suffixFrom (t : TextLayoutInfo) (i : Nat) : TextLayoutInfo :=
  ⟨segsFrom t.text i, t.size, t.max_width⟩

/-! ## Concrete fixtures used by counterexamples and witnesses -/

/-- A childless 5×5 layout node. -/
def leafNode : LayoutTreeNode := .mk ⟨5, 5⟩ sideOffsetsZero none []

/-- A childless 5×10 layout node (an atomic inline box). -/
def boxNode : LayoutTreeNode := .mk ⟨5, 10⟩ sideOffsetsZero none []

/-- A vertical block style with no explicit size, zero margin and zero
padding. -/
def plainVertical : BlockValues := ⟨.Vertical, none, none, sideOffsetsZero, sideOffsetsZero⟩

/-- The cache key built by the first layout pass: one child whose `Rc`
handle lives at address 100 and points to the allocation at 500. -/
def passOneKey : BlockLayoutInputs := ⟨plainVertical, [⟨100, 500, leafNode⟩]⟩

/-- The cache key built by the second layout pass: structurally equal
style, the same child allocation (500), but the `Rc` handle necessarily
lives in the fresh pass's own vector (address 200 ≠ 100, both vectors
being alive during the comparison). -/
def passTwoKey : BlockLayoutInputs := ⟨plainVertical, [⟨200, 500, leafNode⟩]⟩

/-- A word segment of `n` bytes shaped as one glyph of extent `x` with
line height 12 and ascent 10. -/
def wordSeg (n : Nat) (x : ℚ) : Seg := ⟨n, false, [⟨x, 12, 10⟩]⟩

/-- A one-byte whitespace segment with a 5-unit advance. -/
def spaceSeg : Seg := ⟨1, true, [⟨5, 12, 10⟩]⟩

/-! ## C1 — the memoization key compares `Rc` handle addresses -/

/-- C1: the claim fails on the code. `BlockLayoutInputs::eq` calls
`ptr::eq(a, b)` where `a, b : &Rc<LayoutTreeNode>` are references into the
two keys' child vectors, so it compares the addresses of the `Rc` handles
themselves, not the pointed-to allocations. Two successive passes store
their (live) child vectors at distinct addresses, so with structurally
equal style and the very same child allocation the spec's key equality
holds while the code's comparison fails, and the memo recomputes and
returns a freshly allocated node instead of the cached reference. -/
theorem c1_memo_key_compares_handle_addresses :
    specKeyEq passOneKey passTwoKey = true ∧
    BlockLayoutInputs.beq passOneKey passTwoKey = false ∧
    (memoBlock (some ⟨passOneKey, 900, calc_block_layout passOneKey⟩) passTwoKey 901).resultObj
      = 901 ∧
    (901 : Nat) ≠ 900 := by
  refine ⟨by decide, by decide, ?_, by decide⟩
  rfl

/-! ## C2 — vertical offset at carriage return -/

/-- A line state holding one pending item of ascent 2 buffered at x = 1,
with accumulated height 7, line height 3 and line ascent 2. -/
def c2State : LineState := ⟨[], 100, 5, 7, 3, 2, 0, [⟨2, 0, 1, leafNode⟩]⟩

/-- C2 fails as stated: at `c2State` the flushed item's y position is
`height + line_ascender - ascender = 7`, not the claimed
`height + (line_height + line_ascender - ascender) = 10`. -/
theorem c2_carriage_return_offset_counterexample :
    ((c2State.carriage_return).children.map fun c => c.position.y) = [7] ∧
    c2State.height + (c2State.line_height + c2State.line_ascender - 2) = 10 ∧
    (7 : ℚ) ≠ 10 := by
  refine ⟨?_, by norm_num [c2State], by norm_num⟩
  show [c2State.height + c2State.line_ascender - 2] = [7]
  norm_num [c2State]

/-- C2 as amended: at a carriage return every pending item becomes the
child at its buffered position in the flushed line, with x equal to the
pending x recorded when it was buffered and y equal to the accumulated
height plus a vertical offset of `line_ascent - item_ascent` (the
`line_height` term of the original claim is not part of the code's
offset). -/
theorem c2_carriage_return_positions (s : LineState) (i : Nat)
    (h : i < s.line_items.length) :
    (s.carriage_return).children[s.children.length + i]? =
      some (LayoutChild.mk (s.line_items.get ⟨i, h⟩).index
        ⟨(s.line_items.get ⟨i, h⟩).x,
          s.height + s.line_ascender - (s.line_items.get ⟨i, h⟩).ascender⟩
        (s.line_items.get ⟨i, h⟩).layout) := by
  show (s.children ++ s.line_items.map _)[s.children.length + i]? = _
  rw [List.getElem?_append_right (Nat.le_add_right _ _)]
  rw [Nat.add_sub_cancel_left, List.getElem?_map, List.getElem?_eq_getElem h]
  rfl

/-- Witness for the amended C2 at `c2State` and pending index 0. -/
theorem c2_carriage_return_positions_witness :
    0 < c2State.line_items.length ∧
    (c2State.carriage_return).children[c2State.children.length + 0]? =
      some (LayoutChild.mk 0 ⟨1, 7⟩ leafNode) := by
  have h : 0 < c2State.line_items.length := by decide
  refine ⟨h, ?_⟩
  have := c2_carriage_return_positions c2State 0 h
  simpa [c2State] using this

/-! ## C3 — atomic box insertion does not raise the line ascent -/

/-- C3 fails as stated: inserting a 5×10 atomic box into a fresh line
leaves `line_ascender` at 0, whereas the claim requires it to become the
maximum including the item's height, 10. -/
theorem c3_insert_block_item_counterexample :
    ((initialLineState 100).insert_block_item 0 boxNode).line_ascender = 0 ∧
    max (initialLineState 100).line_ascender boxNode.size.height = 10 ∧
    (0 : ℚ) ≠ 10 := by
  refine ⟨?_, ?_, by norm_num⟩
  · show (if (100 : ℚ) < 0 + 5 then (initialLineState 100).carriage_return
      else initialLineState 100).line_ascender = 0
    norm_num [initialLineState]
  · show max (0 : ℚ) 10 = 10
    norm_num

/-- C3 as amended: when the box fits on the current line, the inline
engine buffers it at the current x cursor with its ascent recorded as its
full height, advances the cursor by the box's width, and updates the
current line height to the maximum including the box's height — but the
current line ascent is left unchanged (only text items raise it). -/
theorem c3_insert_block_item_updates (s : LineState) (index : Nat)
    (layout : LayoutTreeNode) (h : ¬ s.max_width < s.x + layout.size.width) :
    (s.insert_block_item index layout).line_items =
        s.line_items ++ [⟨layout.size.height, index, s.x, layout⟩] ∧
    (s.insert_block_item index layout).x = s.x + layout.size.width ∧
    (s.insert_block_item index layout).line_height =
        max s.line_height layout.size.height ∧
    (s.insert_block_item index layout).line_ascender = s.line_ascender := by
  simp [LineState.insert_block_item, if_neg h]

/-- Witness for the amended C3: a 5×10 box inserted into a fresh line of
width 100. -/
theorem c3_insert_block_item_updates_witness :
    ¬ (initialLineState 100).max_width <
        (initialLineState 100).x + boxNode.size.width ∧
    ((initialLineState 100).insert_block_item 0 boxNode).x =
        (initialLineState 100).x + boxNode.size.width := by
  have h : ¬ (initialLineState 100).max_width <
      (initialLineState 100).x + boxNode.size.width := by
    show ¬ (100 : ℚ) < 0 + 5
    norm_num
  exact ⟨h, (c3_insert_block_item_updates (initialLineState 100) 0 boxNode h).2.1⟩

/-! ## Characterization of the block stacking loop -/

@[simp]
theorem size_mk (s : LogicalSize) (m : LogicalSideOffsets) (r : Option LayoutText)
    (c : List LayoutChild) : (LayoutTreeNode.mk s m r c).size = s := rfl

@[simp]
theorem margin_mk (s : LogicalSize) (m : LogicalSideOffsets) (r : Option LayoutText)
    (c : List LayoutChild) : (LayoutTreeNode.mk s m r c).margin = m := rfl

@[simp]
theorem render_text_mk (s : LogicalSize) (m : LogicalSideOffsets) (r : Option LayoutText)
    (c : List LayoutChild) : (LayoutTreeNode.mk s m r c).render_text = r := rfl

@[simp]
theorem children_mk (s : LogicalSize) (m : LogicalSideOffsets) (r : Option LayoutText)
    (c : List LayoutChild) : (LayoutTreeNode.mk s m r c).children = c := rfl

@[simp]
theorem index_mk (i : Nat) (p : LogicalPoint) (l : LayoutTreeNode) :
    (LayoutChild.mk i p l).index = i := rfl

@[simp]
theorem position_mk (i : Nat) (p : LogicalPoint) (l : LayoutTreeNode) :
    (LayoutChild.mk i p l).position = p := rfl

@[simp]
theorem layout_mk (i : Nat) (p : LogicalPoint) (l : LayoutTreeNode) :
    (LayoutChild.mk i p l).layout = l := rfl

/-- The margin-inclusive height of a child. -/
def effH (c : RcChild) : ℚ := (effSize c.node).height

/-- The margin-inclusive width of a child. -/
def effW (c : RcChild) : ℚ := (effSize c.node).width

/-- Sum of the margin-inclusive heights of a child list. -/
def sumEffH (cs : List RcChild) : ℚ := (cs.map effH).sum

/-- Sum of the margin-inclusive widths of a child list. -/
def sumEffW (cs : List RcChild) : ℚ := (cs.map effW).sum

/-- The children a vertical stacking pass produces, starting at
enumeration index `idx` with accumulated main-axis offset `h`. -/
def vertChildren (p : BlockValues) : List RcChild → Nat → ℚ → List LayoutChild
  | [], _, _ => []
  | c :: rest, idx, h =>
    .mk idx ⟨p.padding.left, h + p.padding.top⟩ c.node ::
      vertChildren p rest (idx + 1) (h + effH c)

/-- The children a horizontal stacking pass produces, starting at
enumeration index `idx` with accumulated main-axis offset `w`. -/
def horzChildren (p : BlockValues) : List RcChild → Nat → ℚ → List LayoutChild
  | [], _, _ => []
  | c :: rest, idx, w =>
    .mk idx ⟨w + p.padding.left, p.padding.top⟩ c.node ::
      horzChildren p rest (idx + 1) (w + effW c)

theorem calcAux_vertical (p : BlockValues) (hd : p.direction = .Vertical) :
    ∀ (cs : List RcChild) (idx : Nat) (w h : ℚ) (acc : List LayoutChild),
    calcChildrenAux p cs idx w h acc =
      (cs.foldl (fun m c => max m (effSize c.node).width) w,
       h + sumEffH cs,
       acc ++ vertChildren p cs idx h) := by
  intro cs
  induction cs with
  | nil => intro idx w h acc; simp [calcChildrenAux, sumEffH, vertChildren]
  | cons c rest ih =>
    intro idx w h acc
    simp only [calcChildrenAux, hd]
    rw [ih]
    simp [sumEffH, vertChildren, effH, add_assoc]

theorem calcAux_horizontal (p : BlockValues) (hd : p.direction = .Horizontal) :
    ∀ (cs : List RcChild) (idx : Nat) (w h : ℚ) (acc : List LayoutChild),
    calcChildrenAux p cs idx w h acc =
      (w + sumEffW cs,
       cs.foldl (fun m c => max m (effSize c.node).height) h,
       acc ++ horzChildren p cs idx w) := by
  intro cs
  induction cs with
  | nil => intro idx w h acc; simp [calcChildrenAux, sumEffW, horzChildren]
  | cons c rest ih =>
    intro idx w h acc
    simp only [calcChildrenAux, hd]
    rw [ih]
    simp [sumEffW, horzChildren, effW, add_assoc]

theorem vertChildren_get (p : BlockValues) :
    ∀ (cs : List RcChild) (idx : Nat) (h : ℚ) (i : Nat),
    (vertChildren p cs idx h)[i]? =
      (cs[i]?).map fun c =>
        .mk (idx + i) ⟨p.padding.left, h + sumEffH (cs.take i) + p.padding.top⟩ c.node := by
  intro cs
  induction cs with
  | nil => intro idx h i; simp [vertChildren]
  | cons c rest ih =>
    intro idx h i
    match i with
    | 0 => simp [vertChildren, sumEffH]
    | i + 1 =>
      simp only [vertChildren, List.getElem?_cons_succ, ih]
      have harith : ∀ q : ℚ, h + effH c + q = h + (effH c + q) := fun q => add_assoc _ _ _
      simp [sumEffH, Nat.add_assoc, Nat.add_comm 1 i, harith]

theorem horzChildren_get (p : BlockValues) :
    ∀ (cs : List RcChild) (idx : Nat) (w : ℚ) (i : Nat),
    (horzChildren p cs idx w)[i]? =
      (cs[i]?).map fun c =>
        .mk (idx + i) ⟨w + sumEffW (cs.take i) + p.padding.left, p.padding.top⟩ c.node := by
  intro cs
  induction cs with
  | nil => intro idx w i; simp [horzChildren]
  | cons c rest ih =>
    intro idx w i
    match i with
    | 0 => simp [horzChildren, sumEffW]
    | i + 1 =>
      simp only [horzChildren, List.getElem?_cons_succ, ih]
      have harith : ∀ q : ℚ, w + effW c + q = w + (effW c + q) := fun q => add_assoc _ _ _
      simp [sumEffW, Nat.add_assoc, Nat.add_comm 1 i, harith]

theorem calc_vertical_children (values : BlockValues) (cs : List RcChild)
    (hd : values.direction = .Vertical) :
    (calc_block_layout ⟨values, cs⟩).children = vertChildren values cs 0 0 := by
  unfold calc_block_layout
  rw [calcAux_vertical values hd]
  cases values.width <;> cases values.height <;> simp

theorem calc_horizontal_children (values : BlockValues) (cs : List RcChild)
    (hd : values.direction = .Horizontal) :
    (calc_block_layout ⟨values, cs⟩).children = horzChildren values cs 0 0 := by
  unfold calc_block_layout
  rw [calcAux_horizontal values hd]
  cases values.width <;> cases values.height <;> simp

theorem calc_vertical_height (values : BlockValues) (cs : List RcChild)
    (hd : values.direction = .Vertical) (hh : values.height = none) :
    (calc_block_layout ⟨values, cs⟩).size.height = sumEffH cs + values.padding.vertical := by
  unfold calc_block_layout
  rw [calcAux_vertical values hd]
  cases values.width <;> simp [hh]

theorem calc_horizontal_width (values : BlockValues) (cs : List RcChild)
    (hd : values.direction = .Horizontal) (hw : values.width = none) :
    (calc_block_layout ⟨values, cs⟩).size.width = sumEffW cs + values.padding.horizontal := by
  unfold calc_block_layout
  rw [calcAux_horizontal values hd]
  cases values.height <;> simp [hw]

/-- The y coordinate of the `i`-th produced child (0 when out of range). -/
def childY (n : LayoutTreeNode) (i : Nat) : ℚ :=
  ((n.children[i]?).map fun c => c.position.y).getD 0

/-- The x coordinate of the `i`-th produced child (0 when out of range). -/
def childX (n : LayoutTreeNode) (i : Nat) : ℚ :=
  ((n.children[i]?).map fun c => c.position.x).getD 0

/-- The margin-inclusive height of the `i`-th input child (0 when out of
range). -/
def effHAt (cs : List RcChild) (i : Nat) : ℚ := ((cs[i]?).map effH).getD 0

/-- The margin-inclusive width of the `i`-th input child (0 when out of
range). -/
def effWAt (cs : List RcChild) (i : Nat) : ℚ := ((cs[i]?).map effW).getD 0

theorem sum_map_take_lt {f : RcChild → ℚ} (cs : List RcChild)
    (hpos : ∀ c ∈ cs, 0 < f c) {i j : Nat} (hj : j ≤ cs.length) (hij : i < j) :
    ((cs.take i).map f).sum < ((cs.take j).map f).sum := by
  have hidecomp : cs.take j = cs.take i ++ (cs.drop i).take (j - i) := by
    rw [← List.take_add]
    congr 1
    omega
  rw [hidecomp, List.map_append, List.sum_append]
  have hne : (cs.drop i).take (j - i) ≠ [] := by
    have : ((cs.drop i).take (j - i)).length = min (j - i) (cs.length - i) := by
      simp [List.length_take, List.length_drop]
    intro hcontra
    rw [hcontra] at this
    simp at this
    omega
  have hmem : ∀ x ∈ ((cs.drop i).take (j - i)).map f, 0 < x := by
    intro x hx
    obtain ⟨c, hc, rfl⟩ := List.mem_map.mp hx
    exact hpos c (List.drop_subset _ _ (List.take_subset _ _ hc))
  have : 0 < (((cs.drop i).take (j - i)).map f).sum := by
    apply List.sum_pos _ hmem
    simpa using hne
  linarith

theorem sum_map_take_succ {f : RcChild → ℚ} (cs : List RcChild) {i : Nat}
    (hi : i < cs.length) :
    ((cs.take (i + 1)).map f).sum =
      ((cs.take i).map f).sum + ((cs[i]?).map f).getD 0 := by
  rw [List.take_succ, List.map_append, List.sum_append]
  rw [List.getElem?_eq_getElem hi]
  simp

theorem sum_map_take_mono {f : RcChild → ℚ} (cs : List RcChild)
    (hnn : ∀ c ∈ cs, 0 ≤ f c) {i j : Nat} (hij : i ≤ j) :
    ((cs.take i).map f).sum ≤ ((cs.take j).map f).sum := by
  rcases Nat.le_total j cs.length with hj | hj
  · have hidecomp : cs.take j = cs.take i ++ (cs.drop i).take (j - i) := by
      rw [← List.take_add]
      congr 1
      omega
    rw [hidecomp, List.map_append, List.sum_append]
    have : 0 ≤ (((cs.drop i).take (j - i)).map f).sum := by
      apply List.sum_nonneg
      intro x hx
      obtain ⟨c, hc, rfl⟩ := List.mem_map.mp hx
      exact hnn c (List.drop_subset _ _ (List.take_subset _ _ hc))
    linarith
  · rw [List.take_of_length_le hj]
    have hidecomp : cs = cs.take i ++ cs.drop i := (List.take_append_drop i cs).symm
    calc ((cs.take i).map f).sum
        ≤ ((cs.take i).map f).sum + ((cs.drop i).map f).sum := by
          have : 0 ≤ ((cs.drop i).map f).sum := by
            apply List.sum_nonneg
            intro x hx
            obtain ⟨c, hc, rfl⟩ := List.mem_map.mp hx
            exact hnn c (List.drop_subset _ _ hc)
          linarith
      _ = (cs.map f).sum := by
          conv_rhs => rw [hidecomp]
          rw [List.map_append, List.sum_append]

/-- C5: in a vertical block without explicit height the content height is
the sum of the children's margin-inclusive heights plus vertical padding;
the `i`-th child sits at `(padding.left, padding.top + Σ_{j<i} h_j)`; for
positive margin-inclusive heights the y offsets strictly increase and the
stacked extents do not overlap; and the analogous property holds on the
x-axis for horizontal blocks. -/
theorem c5_block_stacking (values : BlockValues) (cs : List RcChild) :
    (values.direction = .Vertical →
      (values.height = none →
        (calc_block_layout ⟨values, cs⟩).size.height
          = sumEffH cs + values.padding.vertical) ∧
      (∀ i, (calc_block_layout ⟨values, cs⟩).children[i]? =
        (cs[i]?).map fun c =>
          LayoutChild.mk i ⟨values.padding.left, sumEffH (cs.take i) + values.padding.top⟩ c.node) ∧
      ((∀ c ∈ cs, 0 < effH c) → ∀ i j, j < cs.length → i < j →
        childY (calc_block_layout ⟨values, cs⟩) i
            < childY (calc_block_layout ⟨values, cs⟩) j ∧
        childY (calc_block_layout ⟨values, cs⟩) i + effHAt cs i
            ≤ childY (calc_block_layout ⟨values, cs⟩) j)) ∧
    (values.direction = .Horizontal →
      (values.width = none →
        (calc_block_layout ⟨values, cs⟩).size.width
          = sumEffW cs + values.padding.horizontal) ∧
      (∀ i, (calc_block_layout ⟨values, cs⟩).children[i]? =
        (cs[i]?).map fun c =>
          LayoutChild.mk i ⟨sumEffW (cs.take i) + values.padding.left, values.padding.top⟩ c.node) ∧
      ((∀ c ∈ cs, 0 < effW c) → ∀ i j, j < cs.length → i < j →
        childX (calc_block_layout ⟨values, cs⟩) i
            < childX (calc_block_layout ⟨values, cs⟩) j ∧
        childX (calc_block_layout ⟨values, cs⟩) i + effWAt cs i
            ≤ childX (calc_block_layout ⟨values, cs⟩) j)) := by
  constructor
  · intro hd
    have hch : ∀ i, (calc_block_layout ⟨values, cs⟩).children[i]? =
        (cs[i]?).map fun c =>
          LayoutChild.mk i ⟨values.padding.left, sumEffH (cs.take i) + values.padding.top⟩ c.node := by
      intro i
      rw [calc_vertical_children values cs hd, vertChildren_get]
      simp
    refine ⟨calc_vertical_height values cs hd, hch, ?_⟩
    intro hpos i j hj hij
    have hi : i < cs.length := lt_of_lt_of_le hij (Nat.le_of_lt_succ (Nat.lt_succ_of_lt hj))
    have hyi : childY (calc_block_layout ⟨values, cs⟩) i
        = sumEffH (cs.take i) + values.padding.top := by
      unfold childY
      rw [hch i, List.getElem?_eq_getElem hi]
      simp
    have hyj : childY (calc_block_layout ⟨values, cs⟩) j
        = sumEffH (cs.take j) + values.padding.top := by
      unfold childY
      rw [hch j, List.getElem?_eq_getElem hj]
      simp
    constructor
    · rw [hyi, hyj]
      have := sum_map_take_lt cs hpos (Nat.le_of_lt hj) hij
      unfold sumEffH
      linarith [this]
    · rw [hyi, hyj]
      have hstep : sumEffH (cs.take (i + 1)) = sumEffH (cs.take i) + effHAt cs i := by
        unfold sumEffH effHAt
        exact sum_map_take_succ cs hi
      have hmono : sumEffH (cs.take (i + 1)) ≤ sumEffH (cs.take j) := by
        unfold sumEffH
        exact sum_map_take_mono cs (fun c hc => le_of_lt (hpos c hc)) hij
      linarith [hstep, hmono]
  · intro hd
    have hch : ∀ i, (calc_block_layout ⟨values, cs⟩).children[i]? =
        (cs[i]?).map fun c =>
          LayoutChild.mk i ⟨sumEffW (cs.take i) + values.padding.left, values.padding.top⟩ c.node := by
      intro i
      rw [calc_horizontal_children values cs hd, horzChildren_get]
      simp
    refine ⟨calc_horizontal_width values cs hd, hch, ?_⟩
    intro hpos i j hj hij
    have hi : i < cs.length := lt_of_lt_of_le hij (Nat.le_of_lt_succ (Nat.lt_succ_of_lt hj))
    have hyi : childX (calc_block_layout ⟨values, cs⟩) i
        = sumEffW (cs.take i) + values.padding.left := by
      unfold childX
      rw [hch i, List.getElem?_eq_getElem hi]
      simp
    have hyj : childX (calc_block_layout ⟨values, cs⟩) j
        = sumEffW (cs.take j) + values.padding.left := by
      unfold childX
      rw [hch j, List.getElem?_eq_getElem hj]
      simp
    constructor
    · rw [hyi, hyj]
      have := sum_map_take_lt cs hpos (Nat.le_of_lt hj) hij
      unfold sumEffW
      linarith [this]
    · rw [hyi, hyj]
      have hstep : sumEffW (cs.take (i + 1)) = sumEffW (cs.take i) + effWAt cs i := by
        unfold sumEffW effWAt
        exact sum_map_take_succ cs hi
      have hmono : sumEffW (cs.take (i + 1)) ≤ sumEffW (cs.take j) := by
        unfold sumEffW
        exact sum_map_take_mono cs (fun c hc => le_of_lt (hpos c hc)) hij
      linarith [hstep, hmono]

/-- A vertical block style with padding (top 1, right 2, bottom 3,
left 4). -/
def c5Values : BlockValues := ⟨.Vertical, none, none, sideOffsetsZero, ⟨1, 2, 3, 4⟩⟩

/-- A 5×10 child with zero margin at allocation 300. -/
def c5ChildA : RcChild := ⟨0, 300, .mk ⟨5, 10⟩ sideOffsetsZero none []⟩

/-- A 7×20 child with 1-unit margins at allocation 301
(margin-inclusive size 9×22). -/
def c5ChildB : RcChild := ⟨1, 301, .mk ⟨7, 20⟩ ⟨1, 1, 1, 1⟩ none []⟩

/-- Witness for C5: stacking the 5×10 and 7×20-with-margin children in
`c5Values` gives content height 10 + 22 + 4 = 36 and strictly increasing,
non-overlapping y offsets 1 and 11. -/
theorem c5_block_stacking_witness :
    c5Values.direction = .Vertical ∧ c5Values.height = none ∧
    (∀ c ∈ [c5ChildA, c5ChildB], 0 < effH c) ∧
    (calc_block_layout ⟨c5Values, [c5ChildA, c5ChildB]⟩).size.height = 36 ∧
    childY (calc_block_layout ⟨c5Values, [c5ChildA, c5ChildB]⟩) 0 = 1 ∧
    childY (calc_block_layout ⟨c5Values, [c5ChildA, c5ChildB]⟩) 1 = 11 ∧
    childY (calc_block_layout ⟨c5Values, [c5ChildA, c5ChildB]⟩) 0
        < childY (calc_block_layout ⟨c5Values, [c5ChildA, c5ChildB]⟩) 1 ∧
    childY (calc_block_layout ⟨c5Values, [c5ChildA, c5ChildB]⟩) 0 + effHAt [c5ChildA, c5ChildB] 0
        ≤ childY (calc_block_layout ⟨c5Values, [c5ChildA, c5ChildB]⟩) 1 := by
  have hv := (c5_block_stacking c5Values [c5ChildA, c5ChildB]).1 rfl
  have hpos : ∀ c ∈ [c5ChildA, c5ChildB], 0 < effH c := by
    intro c hc
    rcases List.mem_pair.mp hc with rfl | rfl
    · show (0 : ℚ) < 10 + (0 + 0)
      norm_num
    · show (0 : ℚ) < 20 + (1 + 1)
      norm_num
  have hheight := hv.1 rfl
  have hy0 : childY (calc_block_layout ⟨c5Values, [c5ChildA, c5ChildB]⟩) 0 = 1 := by
    unfold childY
    rw [hv.2.1 0]
    norm_num [c5Values, sumEffH]
  have hy1 : childY (calc_block_layout ⟨c5Values, [c5ChildA, c5ChildB]⟩) 1 = 11 := by
    unfold childY
    rw [hv.2.1 1]
    norm_num [c5Values, c5ChildA, sumEffH, effH, effSize, LogicalSideOffsets.vertical,
      LogicalSideOffsets.horizontal, sideOffsetsZero]
  have hmain := hv.2.2 hpos 0 1 (by norm_num) (by norm_num)
  refine ⟨rfl, rfl, hpos, ?_, hy0, hy1, hmain.1, hmain.2⟩
  rw [hheight]
  norm_num [c5Values, c5ChildA, c5ChildB, sumEffH, effH, effSize,
    LogicalSideOffsets.vertical, LogicalSideOffsets.horizontal, sideOffsetsZero]

/-! ## C6 — explicit size overrides -/

theorem calcAux_indep (v₁ v₂ : BlockValues) (hdir : v₁.direction = v₂.direction)
    (hpad : v₁.padding = v₂.padding) :
    ∀ (cs : List RcChild) (idx : Nat) (w h : ℚ) (acc : List LayoutChild),
    calcChildrenAux v₁ cs idx w h acc = calcChildrenAux v₂ cs idx w h acc := by
  intro cs
  induction cs with
  | nil => intro idx w h acc; rfl
  | cons c rest ih =>
    intro idx w h acc
    rcases hd : v₂.direction with _ | _
    · simp only [calcChildrenAux, hdir.trans hd, hd, hpad]
      rw [ih]
    · simp only [calcChildrenAux, hdir.trans hd, hd, hpad]
      rw [ih]

theorem calc_override_children (values : BlockValues) (cs : List RcChild)
    (w? h? : Option ℚ) :
    (calc_block_layout ⟨⟨values.direction, w?, h?, values.margin, values.padding⟩, cs⟩).children
      = (calc_block_layout ⟨values, cs⟩).children := by
  unfold calc_block_layout
  rw [calcAux_indep ⟨values.direction, w?, h?, values.margin, values.padding⟩ values rfl rfl]
  cases w? <;> cases h? <;> cases values.width <;> cases values.height <;> simp

/-- C6: an explicit width and/or height overrides exactly the
corresponding axis of the reported size, while the produced children (and
every other field, including the cross-axis size component) are identical
to what the stacking algorithm yields without the override. -/
theorem c6_explicit_size_override (values : BlockValues) (cs : List RcChild) (w h : ℚ) :
    (calc_block_layout ⟨{values with width := some w}, cs⟩).size.width = w ∧
    (calc_block_layout ⟨{values with height := some h}, cs⟩).size.height = h ∧
    (calc_block_layout ⟨{values with width := some w, height := some h}, cs⟩).size
        = ⟨w, h⟩ ∧
    (calc_block_layout ⟨{values with width := some w, height := some h}, cs⟩).children
        = (calc_block_layout ⟨values, cs⟩).children ∧
    (calc_block_layout ⟨{values with width := some w, height := some h}, cs⟩).margin
        = (calc_block_layout ⟨values, cs⟩).margin ∧
    (calc_block_layout ⟨{values with width := some w, height := some h}, cs⟩).render_text
        = (calc_block_layout ⟨values, cs⟩).render_text ∧
    (calc_block_layout ⟨{values with width := some w}, cs⟩).size.height
        = (calc_block_layout ⟨values, cs⟩).size.height ∧
    (calc_block_layout ⟨{values with height := some h}, cs⟩).size.width
        = (calc_block_layout ⟨values, cs⟩).size.width := by
  refine ⟨?_, ?_, ?_, ?_, ?_, ?_, ?_, ?_⟩
  · unfold calc_block_layout
    cases values.height <;> rfl
  · unfold calc_block_layout
    rfl
  · unfold calc_block_layout
    rfl
  · exact calc_override_children values cs (some w) (some h)
  · unfold calc_block_layout
    rfl
  · unfold calc_block_layout
    rfl
  · unfold calc_block_layout
    rw [calcAux_indep ⟨values.direction, some w, values.height, values.margin, values.padding⟩
      values rfl rfl]
    cases values.width <;> cases values.height <;> rfl
  · unfold calc_block_layout
    rw [calcAux_indep ⟨values.direction, values.width, some h, values.margin, values.padding⟩
      values rfl rfl]
    cases values.width <;> cases values.height <;> rfl

/-! ## C4 — positions relative to the content box -/

/-- Every glyph extent of the text is non-negative (true of shaped
left-to-right text). -/
def segsNonneg (segs : List Seg) : Prop := ∀ s ∈ segs, ∀ g ∈ s.glyphs, 0 ≤ g.newX

theorem segsFrom_glyphs_subset :
    ∀ (segs : List Seg) (o : Nat) (s' : Seg), s' ∈ segsFrom segs o →
      ∃ s ∈ segs, s'.glyphs = s.glyphs := by
  intro segs
  induction segs with
  | nil => intro o s' hs'; cases o <;> simp [segsFrom] at hs'
  | cons s rest ih =>
    intro o s' hs'
    match o with
    | 0 => exact ⟨s', hs', rfl⟩
    | o + 1 =>
      simp only [segsFrom] at hs'
      by_cases hlt : o + 1 < s.len
      · rw [if_pos hlt] at hs'
        rcases List.mem_cons.mp hs' with rfl | hmem
        · exact ⟨s, List.mem_cons_self _ _, rfl⟩
        · exact ⟨s', List.mem_cons_of_mem _ hmem, rfl⟩
      · rw [if_neg hlt] at hs'
        obtain ⟨t, ht, hg⟩ := ih (o + 1 - s.len) s' hs'
        exact ⟨t, List.mem_cons_of_mem _ ht, hg⟩

theorem segsNonneg_segsFrom {segs : List Seg} (h : segsNonneg segs) (o : Nat) :
    segsNonneg (segsFrom segs o) := by
  intro s' hs' g hg
  obtain ⟨s, hs, hgl⟩ := segsFrom_glyphs_subset segs o s' hs'
  exact h s hs g (hgl ▸ hg)

theorem processGlyphs_nonneg (width lwX : ℚ) :
    ∀ (gs : List GlyphInfo) (x h a : ℚ), 0 ≤ lwX → 0 ≤ x →
      (∀ g ∈ gs, 0 ≤ g.newX) → ∀ v, processGlyphs width lwX gs x h a = some v → 0 ≤ v.1 := by
  intro gs
  induction gs with
  | nil =>
    intro x h a _ hx _ v hv
    simp only [processGlyphs] at hv
    cases hv
    exact hx
  | cons g rest ih =>
    intro x h a hlw hx hgs v hv
    simp only [processGlyphs] at hv
    by_cases hcut : width < lwX + g.newX
    · rw [if_pos hcut] at hv; cases hv
    · rw [if_neg hcut] at hv
      have hg0 : 0 ≤ g.newX := hgs g (List.mem_cons_self _ _)
      exact ih _ _ _ hlw (by linarith) (fun g' hg' => hgs g' (List.mem_cons_of_mem _ hg')) v hv

theorem fillAux_width_nonneg (width : ℚ) (offset : Nat) :
    ∀ (segs : List Seg) (pos : Nat) (x h a : ℚ) (e : Nat) (lx lh la : ℚ),
      0 ≤ x → 0 ≤ lx → (∀ s ∈ segs, ∀ g ∈ s.glyphs, 0 ≤ g.newX) →
      0 ≤ (fillLineAux width offset segs pos x h a e lx lh la).2.1 := by
  intro segs
  induction segs with
  | nil => intro pos x h a e lx lh la _ hlx _; exact hlx
  | cons s rest ih =>
    intro pos x h a e lx lh la hx hlx hnn
    simp only [fillLineAux]
    rcases hpg : processGlyphs width lx s.glyphs x h a with _ | v
    · exact hlx
    · obtain ⟨x', h', a'⟩ := v
      have hx' : 0 ≤ x' := by
        have := processGlyphs_nonneg width lx s.glyphs x h a hlx hx
          (fun g hg => hnn s (List.mem_cons_self _ _) g hg) (x', h', a') hpg
        exact this
      exact ih _ _ _ _ _ _ _ _ hx' hx'
        (fun s' hs' g hg => hnn s' (List.mem_cons_of_mem _ hs') g hg)

theorem fill_line_width_nonneg (t : TextLayoutInfo) (width : ℚ) (offset : Nat)
    (h : segsNonneg t.text) : 0 ≤ (t.fill_line width offset).2.1 :=
  fillAux_width_nonneg width offset (segsFrom t.text offset) offset 0 0 0 0 0 0 0
    le_rfl le_rfl (segsNonneg_segsFrom h offset)

/-- The inline x-cursor invariant: the cursor, every buffered pending
item, and every flushed child sit at non-negative x. -/
def XNonneg (s : LineState) : Prop :=
  0 ≤ s.x ∧ (∀ it ∈ s.line_items, 0 ≤ it.x) ∧ (∀ c ∈ s.children, 0 ≤ c.position.x)

theorem xnonneg_carriage_return {s : LineState} (h : XNonneg s) :
    XNonneg s.carriage_return := by
  obtain ⟨hx, hitems, hch⟩ := h
  refine ⟨le_rfl, by simp [LineState.carriage_return], ?_⟩
  intro c hc
  simp only [LineState.carriage_return, List.mem_append, List.mem_map] at hc
  rcases hc with hc | ⟨it, hit, rfl⟩
  · exact hch c hc
  · simpa using hitems it hit

theorem xnonneg_insert_block_item {s : LineState} (h : XNonneg s) (index : Nat)
    {layout : LayoutTreeNode} (hw : 0 ≤ layout.size.width) :
    XNonneg (s.insert_block_item index layout) := by
  have key : ∀ s₁ : LineState, XNonneg s₁ → XNonneg
      { s₁ with
        line_items := s₁.line_items ++ [⟨layout.size.height, index, s₁.x, layout⟩],
        x := s₁.x + layout.size.width,
        line_height := max s₁.line_height layout.size.height } := by
    intro s₁ h₁
    obtain ⟨hx, hitems, hch⟩ := h₁
    refine ⟨by show (0:ℚ) ≤ s₁.x + layout.size.width; linarith, ?_, hch⟩
    intro it hit
    rcases List.mem_append.mp hit with hit | hit
    · exact hitems it hit
    · rw [List.mem_singleton.mp hit]
      exact hx
  by_cases hc : s.max_width < s.x + layout.size.width
  · simp only [LineState.insert_block_item, if_pos hc]
    exact key _ (xnonneg_carriage_return h)
  · simp only [LineState.insert_block_item, if_neg hc]
    exact key _ h

theorem xnonneg_pushFragment {s : LineState} (h : XNonneg s) (t : TextLayoutInfo)
    (index : Nat) (start stop : Nat) {width : ℚ} (lh asc : ℚ) (hw : 0 ≤ width) :
    XNonneg (pushFragment t index s start stop width lh asc) := by
  obtain ⟨hx, hitems, hch⟩ := h
  refine ⟨by simp [pushFragment]; linarith, ?_, hch⟩
  intro it hit
  simp only [pushFragment, List.mem_append, List.mem_singleton] at hit
  rcases hit with hit | rfl
  · exact hitems it hit
  · exact hx

theorem xnonneg_inlineBodyStep {s : LineState} (h : XNonneg s) (t : TextLayoutInfo)
    (index : Nat) (offset : Nat) (hnn : segsNonneg t.text) :
    XNonneg (inlineBodyStep t index s offset).1 := by
  by_cases h1 : (t.fill_line (s.max_width - s.x) offset).1 = 0
  · by_cases h2 : (t.fill_line s.max_width (t.advance_past_whitespace offset)).1 = 0
    · simp only [inlineBodyStep, if_pos h1, if_pos h2]
      exact xnonneg_pushFragment (xnonneg_carriage_return h) t index _ _ _ _
        (fill_line_width_nonneg t _ _ hnn)
    · simp only [inlineBodyStep, if_pos h1, if_neg h2]
      exact xnonneg_pushFragment (xnonneg_carriage_return h) t index _ _ _ _
        (fill_line_width_nonneg t _ _ hnn)
  · simp only [inlineBodyStep, if_neg h1]
    exact xnonneg_pushFragment h t index _ _ _ _ (fill_line_width_nonneg t _ _ hnn)

theorem xnonneg_insertInlineAux (t : TextLayoutInfo) (index : Nat)
    (hnn : segsNonneg t.text) :
    ∀ (fuel : Nat) (s : LineState) (offset : Nat), XNonneg s →
      XNonneg (insertInlineAux t index fuel s offset).1 := by
  intro fuel
  induction fuel with
  | zero => intro s offset h; exact h
  | succ fuel ih =>
    intro s offset h
    simp only [insertInlineAux]
    split
    · exact ih _ _ (xnonneg_inlineBodyStep h t index offset hnn)
    · exact h

/-- One flattened inline item is well-formed for the x-invariant: an
atomic box has non-negative width, a text run has non-negative glyph
extents. -/
def ItemWF : InlineLayoutItem → Prop
  | .Block _ layout => 0 ≤ layout.size.width
  | .Text _ t => segsNonneg t.text

theorem xnonneg_foldl (items : List InlineLayoutItem) :
    ∀ (s : LineState), (∀ it ∈ items, ItemWF it) → XNonneg s →
      XNonneg (items.foldl
        (fun s item =>
          match item with
          | .Block index layout => s.insert_block_item index layout
          | .Text index text => s.insert_inline_item index text) s) := by
  induction items with
  | nil => intro s _ h; exact h
  | cons item rest ih =>
    intro s hwf h
    simp only [List.foldl_cons]
    apply ih _ (fun it hit => hwf it (List.mem_cons_of_mem _ hit))
    match item with
    | .Block index layout =>
      exact xnonneg_insert_block_item h index (hwf _ (List.mem_cons_self _ _))
    | .Text index t =>
      exact xnonneg_insertInlineAux t index (hwf _ (List.mem_cons_self _ _)) _ s 0 h

theorem vertChildren_nonneg (p : BlockValues) (hl : 0 ≤ p.padding.left)
    (ht : 0 ≤ p.padding.top) :
    ∀ (cs : List RcChild) (idx : Nat) (h : ℚ), 0 ≤ h → (∀ c ∈ cs, 0 ≤ effH c) →
      ∀ ch ∈ vertChildren p cs idx h, 0 ≤ ch.position.x ∧ 0 ≤ ch.position.y := by
  intro cs
  induction cs with
  | nil => intro idx h _ _ ch hch; simp [vertChildren] at hch
  | cons c rest ih =>
    intro idx h hh hcs ch hch
    simp only [vertChildren, List.mem_cons] at hch
    rcases hch with rfl | hch
    · constructor
      · simpa using hl
      · have : (0 : ℚ) ≤ h + p.padding.top := by linarith
        simpa using this
    · have hc0 : 0 ≤ effH c := hcs c (List.mem_cons_self _ _)
      exact ih (idx + 1) (h + effH c) (by linarith)
        (fun c' hc' => hcs c' (List.mem_cons_of_mem _ hc')) ch hch

theorem horzChildren_nonneg (p : BlockValues) (hl : 0 ≤ p.padding.left)
    (ht : 0 ≤ p.padding.top) :
    ∀ (cs : List RcChild) (idx : Nat) (w : ℚ), 0 ≤ w → (∀ c ∈ cs, 0 ≤ effW c) →
      ∀ ch ∈ horzChildren p cs idx w, 0 ≤ ch.position.x ∧ 0 ≤ ch.position.y := by
  intro cs
  induction cs with
  | nil => intro idx w _ _ ch hch; simp [horzChildren] at hch
  | cons c rest ih =>
    intro idx w hw hcs ch hch
    simp only [horzChildren, List.mem_cons] at hch
    rcases hch with rfl | hch
    · constructor
      · have : (0 : ℚ) ≤ w + p.padding.left := by linarith
        simpa using this
      · simpa using ht
    · have hc0 : 0 ≤ effW c := hcs c (List.mem_cons_self _ _)
      exact ih (idx + 1) (w + effW c) (by linarith)
        (fun c' hc' => hcs c' (List.mem_cons_of_mem _ hc')) ch hch

/-- C4 fails as stated: inline layout of a single 5×10 atomic box on a
100-wide line places the box's child at y = −10 < 0, because the box does
not raise the line ascent it is aligned against. -/
theorem c4_negative_y_counterexample :
    ((layout_inline 100 [.Block 0 boxNode]).children.map fun c => c.position.y) = [-10] ∧
    ¬ (0 : ℚ) ≤ -10 := by
  constructor
  · norm_num [layout_inline, LineState.insert_block_item, LineState.carriage_return,
      initialLineState, boxNode]
  · norm_num

/-- C4 as amended: for well-formed input (non-negative padding and
margin-inclusive child sizes) every `LayoutChild` produced by the block
layout engine has position ≥ (0,0) in both axes, and every child produced
by the inline layout engine has x ≥ 0; but an inline child's y may be
negative when an atomic box taller than the line's text ascent is placed
(its y is `line_ascent − box_height`), so the inline y-axis part of the
claim fails. -/
theorem c4_positions_amended :
    (∀ (values : BlockValues) (cs : List RcChild),
      0 ≤ values.padding.left → 0 ≤ values.padding.top →
      (∀ c ∈ cs, 0 ≤ effH c) → (∀ c ∈ cs, 0 ≤ effW c) →
      ∀ ch ∈ (calc_block_layout ⟨values, cs⟩).children,
        0 ≤ ch.position.x ∧ 0 ≤ ch.position.y) ∧
    (∀ (maxWidth : ℚ) (items : List InlineLayoutItem),
      (∀ it ∈ items, ItemWF it) →
      ∀ ch ∈ (layout_inline maxWidth items).children, 0 ≤ ch.position.x) := by
  constructor
  · intro values cs hl ht hH hW ch hch
    rcases hd : values.direction with _ | _
    · rw [calc_vertical_children values cs hd] at hch
      exact vertChildren_nonneg values hl ht cs 0 0 le_rfl hH ch hch
    · rw [calc_horizontal_children values cs hd] at hch
      exact horzChildren_nonneg values hl ht cs 0 0 le_rfl hW ch hch
  · intro maxWidth items hwf ch hch
    have hinit : XNonneg (initialLineState maxWidth) := by
      refine ⟨le_rfl, ?_, ?_⟩ <;> intro x hx <;> simp [initialLineState] at hx
    have hfold := xnonneg_foldl items (initialLineState maxWidth) hwf hinit
    have hfinal := xnonneg_carriage_return hfold
    have hch' : ch ∈ ((items.foldl
        (fun s item =>
          match item with
          | .Block index layout => s.insert_block_item index layout
          | .Text index text => s.insert_inline_item index text)
        (initialLineState maxWidth)).carriage_return).children := hch
    exact hfinal.2.2 ch hch'

/-- Witness for the amended C4 at the concrete vertical block
`⟨c5Values, [c5ChildA]⟩` and the concrete inline input
`layout_inline 100 [.Block 0 boxNode]`. -/
theorem c4_positions_amended_witness :
    ((0 : ℚ) ≤ c5Values.padding.left ∧ (0 : ℚ) ≤ c5Values.padding.top ∧
      (∀ c ∈ [c5ChildA], 0 ≤ effH c) ∧ (∀ c ∈ [c5ChildA], 0 ≤ effW c) ∧
      ∀ ch ∈ (calc_block_layout ⟨c5Values, [c5ChildA]⟩).children,
        0 ≤ ch.position.x ∧ 0 ≤ ch.position.y) ∧
    ((∀ it ∈ [InlineLayoutItem.Block 0 boxNode], ItemWF it) ∧
      ∀ ch ∈ (layout_inline 100 [.Block 0 boxNode]).children, 0 ≤ ch.position.x) := by
  have hl : (0 : ℚ) ≤ c5Values.padding.left := by norm_num [c5Values]
  have ht : (0 : ℚ) ≤ c5Values.padding.top := by norm_num [c5Values]
  have hH : ∀ c ∈ [c5ChildA], 0 ≤ effH c := by
    intro c hc
    rw [List.mem_singleton.mp hc]
    show (0 : ℚ) ≤ 10 + (0 + 0)
    norm_num
  have hW : ∀ c ∈ [c5ChildA], 0 ≤ effW c := by
    intro c hc
    rw [List.mem_singleton.mp hc]
    show (0 : ℚ) ≤ 5 + (0 + 0)
    norm_num
  have hwf : ∀ it ∈ [InlineLayoutItem.Block 0 boxNode], ItemWF it := by
    intro it hit
    rw [List.mem_singleton.mp hit]
    show (0 : ℚ) ≤ boxNode.size.width
    norm_num [boxNode]
  exact ⟨⟨hl, ht, hH, hW,
      c4_positions_amended.1 c5Values [c5ChildA] hl ht hH hW⟩,
    ⟨hwf, c4_positions_amended.2 100 [.Block 0 boxNode] hwf⟩⟩

/-! ## C8 — the fitter's result depends only on the suffix -/

theorem fillAux_offset_invariant (width : ℚ) :
    ∀ (segs : List Seg) (d o o' : Nat) (x h a : ℚ) (e : Nat) (lx lh la : ℚ),
    fillLineAux width o segs (o + d) x h a e lx lh la =
      fillLineAux width o' segs (o' + d) x h a e lx lh la := by
  intro segs
  induction segs with
  | nil => intros; rfl
  | cons s rest ih =>
    intro d o o' x h a e lx lh la
    simp only [fillLineAux]
    rcases hpg : processGlyphs width lx s.glyphs x h a with _ | v
    · rfl
    · obtain ⟨x', h', a'⟩ := v
      have h1 : o + d + s.len = o + (d + s.len) := by omega
      have h2 : o' + d + s.len = o' + (d + s.len) := by omega
      have h3 : o + d + s.len - o = d + s.len := by omega
      have h4 : o' + d + s.len - o' = d + s.len := by omega
      rw [h3, h4, h1, h2]
      exact ih (d + s.len) o o' x' h' a' (d + s.len) x' h' a'

/-- C8: the fitter invoked at a valid offset `i` returns the same tuple as
the fitter invoked on the suffix of the text starting at `i` with offset
0 — the greedy loop has no hidden state beyond the explicit offset. -/
theorem c8_fill_line_restart (t : TextLayoutInfo) (width : ℚ) (i : Nat)
    (hvalid : validOffset t.text i = true) :
    t.fill_line width i = (t.suffixFrom i).fill_line width 0 := by
  show fillLineAux width i (segsFrom t.text i) i 0 0 0 0 0 0 0 =
    fillLineAux width 0 (segsFrom (segsFrom t.text i) 0) 0 0 0 0 0 0 0 0
  have hs0 : segsFrom (segsFrom t.text i) 0 = segsFrom t.text i := by
    cases segsFrom t.text i <;> rfl
  rw [hs0]
  have := fillAux_offset_invariant width (segsFrom t.text i) 0 i 0 0 0 0 0 0 0 0
  simpa using this

/-- The segments of "The quick brown fox" with word widths 30, 35, 40, 20
and 5-unit spaces, at font size 14 with max width 70. -/
def demoInfo : TextLayoutInfo :=
  ⟨[wordSeg 3 30, spaceSeg, wordSeg 5 35, spaceSeg, wordSeg 5 40, spaceSeg, wordSeg 3 20],
    14, 70⟩

/-- Witness for C8 at the demo text and the offset 10 (the start of
"brown"). -/
theorem c8_fill_line_restart_witness :
    validOffset demoInfo.text 10 = true ∧
    demoInfo.fill_line 70 10 = (demoInfo.suffixFrom 10).fill_line 70 0 := by
  have hv : validOffset demoInfo.text 10 = true := by decide
  exact ⟨hv, c8_fill_line_restart demoInfo 70 10 hv⟩

/-! ## Facts about well-shaped glyph runs and the measurement loop -/

theorem glyphsWF_ne_nil {gs : List GlyphInfo} (h : glyphsWF gs = true) : gs ≠ [] := by
  intro hcontra
  rw [hcontra] at h
  simp [glyphsWF] at h

theorem glyphsWF_cons_cons {g₁ g₂ : GlyphInfo} {gs : List GlyphInfo}
    (h : glyphsWF (g₁ :: g₂ :: gs) = true) :
    0 ≤ g₁.newX ∧ g₁.newX ≤ g₂.newX ∧ glyphsWF (g₂ :: gs) = true := by
  simpa [glyphsWF, Bool.and_eq_true, decide_eq_true_eq, and_assoc] using h

theorem glyphsWF_nonneg : ∀ {gs : List GlyphInfo}, glyphsWF gs = true →
    ∀ g ∈ gs, 0 ≤ g.newX := by
  intro gs
  induction gs with
  | nil => intro h g hg; simp at hg
  | cons g rest ih =>
    intro h g' hg'
    cases rest with
    | nil =>
      rcases List.mem_singleton.mp hg' with rfl
      simpa [glyphsWF, decide_eq_true_eq] using h
    | cons g₂ r =>
      obtain ⟨h0, hle, htail⟩ := glyphsWF_cons_cons h
      rcases List.mem_cons.mp hg' with rfl | hmem
      · exact h0
      · exact ih htail g' hmem

theorem measureGlyphs_ge_head (lwX : ℚ) :
    ∀ (rest : List GlyphInfo) (g : GlyphInfo) (h a : ℚ),
    glyphsWF (g :: rest) = true →
    lwX + g.newX ≤ (measureGlyphs lwX rest (lwX + g.newX) h a).1 := by
  intro rest
  induction rest with
  | nil => intro g h a _; exact le_rfl
  | cons g₂ r ih =>
    intro g h a hwf
    obtain ⟨_, hle, htail⟩ := glyphsWF_cons_cons hwf
    have := ih g₂ (max h g₂.lineHeight) (max a g₂.ascent) htail
    calc lwX + g.newX ≤ lwX + g₂.newX := by linarith
      _ ≤ _ := this

theorem processGlyphs_none_lt (width lwX : ℚ) :
    ∀ (gs : List GlyphInfo) (x h a : ℚ), glyphsWF gs = true →
    processGlyphs width lwX gs x h a = none →
    width < (measureGlyphs lwX gs x h a).1 := by
  intro gs
  induction gs with
  | nil => intro x h a _ hpn; simp [processGlyphs] at hpn
  | cons g rest ih =>
    intro x h a hwf hpn
    by_cases hcut : width < lwX + g.newX
    · have hge : lwX + g.newX
          ≤ (measureGlyphs lwX rest (lwX + g.newX) (max h g.lineHeight) (max a g.ascent)).1 :=
        measureGlyphs_ge_head lwX rest g (max h g.lineHeight) (max a g.ascent) hwf
      show width < (measureGlyphs lwX rest (lwX + g.newX) _ _).1
      linarith
    · rw [show processGlyphs width lwX (g :: rest) x h a
          = processGlyphs width lwX rest (lwX + g.newX) (max h g.lineHeight) (max a g.ascent)
        from by simp [processGlyphs, if_neg hcut]] at hpn
      cases rest with
      | nil => simp [processGlyphs] at hpn
      | cons g₂ r =>
        obtain ⟨_, _, htail⟩ := glyphsWF_cons_cons hwf
        exact ih _ _ _ htail hpn

theorem processGlyphs_some_eq (width lwX : ℚ) :
    ∀ (gs : List GlyphInfo) (x h a : ℚ) (v : ℚ × ℚ × ℚ),
    processGlyphs width lwX gs x h a = some v → v = measureGlyphs lwX gs x h a := by
  intro gs
  induction gs with
  | nil =>
    intro x h a v hv
    simp only [processGlyphs] at hv
    cases hv
    rfl
  | cons g rest ih =>
    intro x h a v hv
    by_cases hcut : width < lwX + g.newX
    · simp [processGlyphs, if_pos hcut] at hv
    · rw [show processGlyphs width lwX (g :: rest) x h a
          = processGlyphs width lwX rest (lwX + g.newX) (max h g.lineHeight) (max a g.ascent)
        from by simp [processGlyphs, if_neg hcut]] at hv
      exact ih _ _ _ v hv

theorem processGlyphs_some_le (width lwX : ℚ) :
    ∀ (gs : List GlyphInfo) (x h a : ℚ) (v : ℚ × ℚ × ℚ), gs ≠ [] →
    processGlyphs width lwX gs x h a = some v → v.1 ≤ width := by
  intro gs
  induction gs with
  | nil => intro x h a v hne _; exact absurd rfl hne
  | cons g rest ih =>
    intro x h a v _ hv
    by_cases hcut : width < lwX + g.newX
    · simp [processGlyphs, if_pos hcut] at hv
    · rw [show processGlyphs width lwX (g :: rest) x h a
          = processGlyphs width lwX rest (lwX + g.newX) (max h g.lineHeight) (max a g.ascent)
        from by simp [processGlyphs, if_neg hcut]] at hv
      cases rest with
      | nil =>
        simp only [processGlyphs] at hv
        cases hv
        exact not_lt.mp hcut
      | cons g₂ r => exact ih _ _ _ v (by simp) hv

theorem measureGlyphs_x_ge (lwX : ℚ) :
    ∀ (gs : List GlyphInfo) (x h a : ℚ), (∀ g ∈ gs, 0 ≤ g.newX) → lwX ≤ x →
    lwX ≤ (measureGlyphs lwX gs x h a).1 := by
  intro gs
  induction gs with
  | nil => intro x h a _ hx; exact hx
  | cons g rest ih =>
    intro x h a hnn hx
    have hg : 0 ≤ g.newX := hnn g (List.mem_cons_self _ _)
    exact ih _ _ _ (fun g' hg' => hnn g' (List.mem_cons_of_mem _ hg')) (by linarith)

theorem measureSegs_cons (s : Seg) (l : List Seg) (x h a : ℚ) :
    measureSegs (s :: l) x h a =
      measureSegs l (measureGlyphs x s.glyphs x h a).1
        (measureGlyphs x s.glyphs x h a).2.1 (measureGlyphs x s.glyphs x h a).2.2 := rfl

theorem measureSegs_x_mono :
    ∀ (segs : List Seg) (x h a : ℚ), (∀ s ∈ segs, ∀ g ∈ s.glyphs, 0 ≤ g.newX) →
    x ≤ (measureSegs segs x h a).1 := by
  intro segs
  induction segs with
  | nil => intro x h a _; exact le_rfl
  | cons s rest ih =>
    intro x h a hnn
    rw [measureSegs_cons]
    calc x ≤ (measureGlyphs x s.glyphs x h a).1 :=
          measureGlyphs_x_ge x s.glyphs x h a (hnn s (List.mem_cons_self _ _)) le_rfl
      _ ≤ _ := ih _ _ _ (fun s' hs' => hnn s' (List.mem_cons_of_mem _ hs'))

theorem measureSegs_append :
    ∀ (l₁ l₂ : List Seg) (x h a : ℚ),
    measureSegs (l₁ ++ l₂) x h a =
      measureSegs l₂ (measureSegs l₁ x h a).1
        (measureSegs l₁ x h a).2.1 (measureSegs l₁ x h a).2.2 := by
  intro l₁
  induction l₁ with
  | nil => intros; rfl
  | cons s rest ih =>
    intro l₂ x h a
    rw [List.cons_append, measureSegs_cons, measureSegs_cons, ih]

theorem measureSegs_take_mono (segs : List Seg) (x h a : ℚ)
    (hnn : ∀ s ∈ segs, ∀ g ∈ s.glyphs, 0 ≤ g.newX) {i j : Nat} (hij : i ≤ j) :
    (measureSegs (segs.take i) x h a).1 ≤ (measureSegs (segs.take j) x h a).1 := by
  have hdecomp : segs.take j = segs.take i ++ (segs.drop i).take (j - i) := by
    rw [← List.take_add]
    congr 1
    omega
  rw [hdecomp, measureSegs_append]
  exact measureSegs_x_mono _ _ _ _ fun s hs =>
    hnn s (List.drop_subset _ _ (List.take_subset _ _ hs))

theorem segsWF_mem {segs : List Seg} (h : segsWF segs = true) {s : Seg} (hs : s ∈ segs) :
    glyphsWF s.glyphs = true :=
  List.all_eq_true.mp h s hs

theorem segsWF_nonneg {segs : List Seg} (h : segsWF segs = true) :
    ∀ s ∈ segs, ∀ g ∈ s.glyphs, 0 ≤ g.newX :=
  fun s hs g hg => glyphsWF_nonneg (segsWF_mem h hs) g hg

theorem segsWF_segsFrom {segs : List Seg} (h : segsWF segs = true) (o : Nat) :
    segsWF (segsFrom segs o) = true := by
  apply List.all_eq_true.mpr
  intro s' hs'
  obtain ⟨s, hs, hgl⟩ := segsFrom_glyphs_subset segs o s' hs'
  rw [hgl]
  exact segsWF_mem h hs

/-! ## C7 — the fitter returns the longest fitting prefix of whole words -/

/-- The exhaustive application of `fillLineAux` one word at a time: there
is a committed word count `k` such that the result is exactly the
consumed-length and measurement of the first `k` words, `k` fits (when
non-zero), and `k` is maximal among fitting word counts. -/
theorem fillAux_longest (width : ℚ) :
    ∀ (segs : List Seg) (offset pos : Nat) (x h a : ℚ),
      offset ≤ pos → segsWF segs = true →
      ∃ k, k ≤ segs.length ∧
        fillLineAux width offset segs pos x h a (pos - offset) x h a =
          (pos - offset + bytesOf (segs.take k),
            (measureSegs (segs.take k) x h a).1,
            (measureSegs (segs.take k) x h a).2.1,
            (measureSegs (segs.take k) x h a).2.2) ∧
        (k ≠ 0 → (measureSegs (segs.take k) x h a).1 ≤ width) ∧
        (∀ j, j ≤ segs.length → (measureSegs (segs.take j) x h a).1 ≤ width → j ≤ k) := by
  intro segs
  induction segs with
  | nil =>
    intro offset pos x h a hop hwf
    refine ⟨0, le_rfl, ?_, fun hk => absurd rfl hk, fun j hj _ => Nat.le_of_lt_succ (Nat.lt_succ_of_le hj)⟩
    simp [fillLineAux, bytesOf, measureSegs]
  | cons s rest ih =>
    intro offset pos x h a hop hwf
    have hwf_s : glyphsWF s.glyphs = true := segsWF_mem hwf (List.mem_cons_self _ _)
    have hwf_rest : segsWF rest = true := by
      have := List.all_eq_true.mp hwf
      apply List.all_eq_true.mpr
      intro s' hs'
      exact this s' (List.mem_cons_of_mem _ hs')
    have hnn_all : ∀ s' ∈ s :: rest, ∀ g ∈ s'.glyphs, 0 ≤ g.newX := segsWF_nonneg hwf
    simp only [fillLineAux]
    rcases hpg : processGlyphs width x s.glyphs x h a with _ | v
    · refine ⟨0, Nat.zero_le _, ?_, fun hk => absurd rfl hk, ?_⟩
      · simp [bytesOf, measureSegs]
      · intro j hj hfit
        match j with
        | 0 => exact le_rfl
        | j + 1 =>
          exfalso
          have hlt : width < (measureGlyphs x s.glyphs x h a).1 :=
            processGlyphs_none_lt width x s.glyphs x h a hwf_s hpg
          have hdecomp : measureSegs ((s :: rest).take (j + 1)) x h a
              = measureSegs (rest.take j) (measureGlyphs x s.glyphs x h a).1
                  (measureGlyphs x s.glyphs x h a).2.1
                  (measureGlyphs x s.glyphs x h a).2.2 := by
            rw [List.take_succ_cons, measureSegs_cons]
          have hmono : (measureGlyphs x s.glyphs x h a).1
              ≤ (measureSegs ((s :: rest).take (j + 1)) x h a).1 := by
            rw [hdecomp]
            exact measureSegs_x_mono _ _ _ _ fun s' hs' =>
              hnn_all s' (List.mem_cons_of_mem _ (List.take_subset _ _ hs'))
          linarith
    · obtain ⟨x', h', a'⟩ := v
      have hveq : ((x', h', a') : ℚ × ℚ × ℚ) = measureGlyphs x s.glyphs x h a :=
        processGlyphs_some_eq width x s.glyphs x h a _ hpg
      have hx' : (measureGlyphs x s.glyphs x h a).1 = x' := by rw [← hveq]
      have hh' : (measureGlyphs x s.glyphs x h a).2.1 = h' := by rw [← hveq]
      have ha' : (measureGlyphs x s.glyphs x h a).2.2 = a' := by rw [← hveq]
      obtain ⟨k', hk'len, hk'eq, hk'fit, hk'max⟩ :=
        ih offset (pos + s.len) x' h' a' (le_trans hop (Nat.le_add_right _ _)) hwf_rest
      have htake : ∀ j : Nat, measureSegs ((s :: rest).take (j + 1)) x h a
          = measureSegs (rest.take j) x' h' a' := by
        intro j
        rw [List.take_succ_cons, measureSegs_cons, hx', hh', ha']
      refine ⟨k' + 1, Nat.succ_le_succ hk'len, ?_, ?_, ?_⟩
      · show fillLineAux width offset rest (pos + s.len) x' h' a'
            (pos + s.len - offset) x' h' a' = _
        rw [hk'eq, htake k']
        have hbytes : pos + s.len - offset + bytesOf (rest.take k')
            = pos - offset + bytesOf ((s :: rest).take (k' + 1)) := by
          rw [List.take_succ_cons]
          simp only [bytesOf, List.map_cons, List.sum_cons]
          omega
        rw [hbytes]
      · intro _
        rw [htake k']
        match k' with
        | 0 =>
          show (measureSegs [] x' h' a').1 ≤ width
          show x' ≤ width
          have := processGlyphs_some_le width x s.glyphs x h a (x', h', a')
            (glyphsWF_ne_nil hwf_s) hpg
          exact this
        | k' + 1 =>
          exact hk'fit (Nat.succ_ne_zero k')
      · intro j hj hfit
        match j with
        | 0 => exact Nat.zero_le _
        | j + 1 =>
          rw [htake j] at hfit
          exact Nat.succ_le_succ
            (hk'max j (Nat.le_of_succ_le_succ hj) hfit)

/-- The number of whole words of `segs` in the longest prefix whose
measured extent fits within `width` — the specification's "longest run of
whole words that fits". -/
def longestFit (width : ℚ) (segs : List Seg) : Nat :=
  Nat.findGreatest (fun j => (measureSegs (segs.take j) 0 0 0).1 ≤ width) segs.length

/-- `segsFrom _ 0` is the identity. -/
theorem segsFrom_zero (segs : List Seg) : segsFrom segs 0 = segs := by
  cases segs <;> rfl

/-- C7: for well-shaped text and a valid start offset, the fitter returns
the consumed byte length, measured width, line height and ascent of the
longest prefix of whole words of the suffix whose measured extent fits
within the target width (a width exactly equal to the target still fits,
the comparison being strict excess); in particular, when the very first
word already exceeds the target width the returned consumed length is
zero. -/
theorem c7_fill_line_longest_fit (t : TextLayoutInfo) (width : ℚ) (offset : Nat)
    (hwf : segsWF t.text = true) (hvo : validOffset t.text offset = true) :
    t.fill_line width offset =
      (bytesOf ((segsFrom t.text offset).take (longestFit width (segsFrom t.text offset))),
        (measureSegs ((segsFrom t.text offset).take
          (longestFit width (segsFrom t.text offset))) 0 0 0).1,
        (measureSegs ((segsFrom t.text offset).take
          (longestFit width (segsFrom t.text offset))) 0 0 0).2.1,
        (measureSegs ((segsFrom t.text offset).take
          (longestFit width (segsFrom t.text offset))) 0 0 0).2.2) ∧
    (width < (measureSegs ((segsFrom t.text offset).take 1) 0 0 0).1 →
      (t.fill_line width offset).1 = 0) := by
  have hwf' := segsWF_segsFrom hwf offset
  obtain ⟨k, hk, heq, hfit, hmax⟩ :=
    fillAux_longest width (segsFrom t.text offset) offset offset 0 0 0 le_rfl hwf'
  rw [Nat.sub_self] at heq
  have hfl : t.fill_line width offset =
      (bytesOf ((segsFrom t.text offset).take k),
        (measureSegs ((segsFrom t.text offset).take k) 0 0 0).1,
        (measureSegs ((segsFrom t.text offset).take k) 0 0 0).2.1,
        (measureSegs ((segsFrom t.text offset).take k) 0 0 0).2.2) := by
    show fillLineAux width offset (segsFrom t.text offset) offset 0 0 0 0 0 0 0 = _
    rw [heq, Nat.zero_add]
  have hkfg : longestFit width (segsFrom t.text offset) = k := by
    unfold longestFit
    rw [Nat.findGreatest_eq_iff]
    refine ⟨hk, hfit, ?_⟩
    intro n hn1 hn2 hP
    exact absurd (hmax n hn2 hP) (Nat.not_le.mpr hn1)
  constructor
  · rw [hkfg]
    exact hfl
  · intro hover
    have hk0 : k = 0 := by
      by_contra hk0
      have h1k : 1 ≤ k := Nat.one_le_iff_ne_zero.mpr hk0
      have : (measureSegs ((segsFrom t.text offset).take 1) 0 0 0).1
          ≤ (measureSegs ((segsFrom t.text offset).take k) 0 0 0).1 :=
        measureSegs_take_mono _ _ _ _ (segsWF_nonneg hwf') h1k
      have := hfit hk0
      linarith
    rw [hfl, hk0]
    simp [bytesOf]

/-- Witness for C7 at the demo text, width 70, offset 0. -/
theorem c7_fill_line_longest_fit_witness :
    segsWF demoInfo.text = true ∧ validOffset demoInfo.text 0 = true ∧
    (demoInfo.fill_line 70 0 =
      (bytesOf ((segsFrom demoInfo.text 0).take (longestFit 70 (segsFrom demoInfo.text 0))),
        (measureSegs ((segsFrom demoInfo.text 0).take
          (longestFit 70 (segsFrom demoInfo.text 0))) 0 0 0).1,
        (measureSegs ((segsFrom demoInfo.text 0).take
          (longestFit 70 (segsFrom demoInfo.text 0))) 0 0 0).2.1,
        (measureSegs ((segsFrom demoInfo.text 0).take
          (longestFit 70 (segsFrom demoInfo.text 0))) 0 0 0).2.2) ∧
    (70 < (measureSegs ((segsFrom demoInfo.text 0).take 1) 0 0 0).1 →
      (demoInfo.fill_line 70 0).1 = 0)) := by
  have h1 : segsWF demoInfo.text = true := by decide
  have h2 : validOffset demoInfo.text 0 = true := by decide
  exact ⟨h1, h2, c7_fill_line_longest_fit demoInfo 70 0 h1 h2⟩

/-! ## C10 — text leaves directly under a block element -/

/-- C10: a text leaf directly under a block element is measured by a
single fitter call with offset 0 against the effectively unbounded width
999999 — the result does not depend on the available content width at all,
and (for well-shaped text whose total extent stays within that budget) the
call consumes the whole text in one unwrapped line, measuring the full
extent; the produced leaf node carries the full text as its rendered-text
payload, the default zero margin, and no children. -/
theorem c10_block_text_leaf (ts mw mw' : ℚ) (text : List Seg)
    (hwf : segsWF text = true)
    (hext : (measureSegs text 0 0 0).1 ≤ 999999) :
    layoutTextLeaf ts mw text = layoutTextLeaf ts mw' text ∧
    TextLayoutInfo.fill_line ⟨text, ts, mw⟩ 999999 0
      = (bytesOf text, (measureSegs text 0 0 0).1, (measureSegs text 0 0 0).2.1,
          (measureSegs text 0 0 0).2.2) ∧
    (layoutTextLeaf ts mw text).render_text = some ⟨text, ts⟩ ∧
    (layoutTextLeaf ts mw text).margin = sideOffsetsZero ∧
    (layoutTextLeaf ts mw text).children = [] ∧
    (layoutTextLeaf ts mw text).size
      = ⟨(measureSegs text 0 0 0).1, (measureSegs text 0 0 0).2.1⟩ := by
  have hfill : TextLayoutInfo.fill_line ⟨text, ts, mw⟩ 999999 0
      = (bytesOf text, (measureSegs text 0 0 0).1, (measureSegs text 0 0 0).2.1,
          (measureSegs text 0 0 0).2.2) := by
    have hwf0 : segsWF (segsFrom text 0) = true := by rw [segsFrom_zero]; exact hwf
    obtain ⟨k, hk, heq, hfit, hmax⟩ :=
      fillAux_longest 999999 (segsFrom text 0) 0 0 0 0 0 le_rfl hwf0
    rw [segsFrom_zero] at heq hk hmax
    have hkn : k = text.length := by
      have hfits_all : (measureSegs (text.take text.length) 0 0 0).1 ≤ 999999 := by
        rw [List.take_length]
        exact hext
      exact Nat.le_antisymm hk (hmax text.length le_rfl hfits_all)
    show fillLineAux 999999 0 (segsFrom text 0) 0 0 0 0 0 0 0 0 = _
    rw [segsFrom_zero]
    have h00 : (0 : Nat) - 0 = 0 := rfl
    rw [h00] at heq
    rw [heq, hkn, List.take_length, Nat.zero_add]
  refine ⟨rfl, hfill, rfl, rfl, rfl, ?_⟩
  show LogicalSize.mk (TextLayoutInfo.fill_line ⟨text, ts, mw⟩ 999999 0).2.1
      (TextLayoutInfo.fill_line ⟨text, ts, mw⟩ 999999 0).2.2.1 = _
  rw [hfill]

/-- Witness for C10 at the demo text with content widths 10 and 99. -/
theorem c10_block_text_leaf_witness :
    segsWF demoInfo.text = true ∧
    (measureSegs demoInfo.text 0 0 0).1 ≤ 999999 ∧
    layoutTextLeaf 14 10 demoInfo.text = layoutTextLeaf 14 99 demoInfo.text ∧
    (layoutTextLeaf 14 10 demoInfo.text).render_text = some ⟨demoInfo.text, 14⟩ ∧
    (layoutTextLeaf 14 10 demoInfo.text).children = [] := by
  have h1 : segsWF demoInfo.text = true := by decide
  have h2 : (measureSegs demoInfo.text 0 0 0).1 ≤ 999999 := by
    norm_num [demoInfo, measureSegs, measureGlyphs, wordSeg, spaceSeg]
  have h := c10_block_text_leaf 14 10 99 demoInfo.text h1 h2
  exact ⟨h1, h2, h.1, h.2.2.1, h.2.2.2.2.1⟩

/-! ## C9 — termination of the inline packing loop -/

theorem bytesOf_segsFrom :
    ∀ (segs : List Seg) (o : Nat), bytesOf (segsFrom segs o) = bytesOf segs - o := by
  intro segs
  induction segs with
  | nil => intro o; cases o <;> simp [segsFrom, bytesOf]
  | cons s rest ih =>
    intro o
    match o with
    | 0 => simp [segsFrom]
    | o + 1 =>
      simp only [segsFrom]
      by_cases hlt : o + 1 < s.len
      · rw [if_pos hlt]
        simp only [bytesOf, List.map_cons, List.sum_cons]
        omega
      · rw [if_neg hlt, ih]
        simp only [bytesOf, List.map_cons, List.sum_cons]
        omega

theorem leadingWsLen_le : ∀ segs : List Seg, leadingWsLen segs ≤ bytesOf segs := by
  intro segs
  induction segs with
  | nil => simp [leadingWsLen, bytesOf]
  | cons s rest ih =>
    simp only [leadingWsLen, bytesOf, List.map_cons, List.sum_cons]
    split
    · have : bytesOf rest = (rest.map Seg.len).sum := rfl
      omega
    · omega

theorem fillAux_consumed_le (width : ℚ) (offset : Nat) :
    ∀ (segs : List Seg) (pos : Nat) (x h a : ℚ) (e : Nat) (lx lh la : ℚ),
      e ≤ pos - offset →
      (fillLineAux width offset segs pos x h a e lx lh la).1 ≤ pos - offset + bytesOf segs := by
  intro segs
  induction segs with
  | nil =>
    intro pos x h a e lx lh la he
    show e ≤ pos - offset + bytesOf []
    simp only [bytesOf, List.map_nil, List.sum_nil]
    omega
  | cons s rest ih =>
    intro pos x h a e lx lh la he
    simp only [fillLineAux]
    rcases hpg : processGlyphs width lx s.glyphs x h a with _ | v
    · exact he.trans (Nat.le_add_right _ _)
    · obtain ⟨x', h', a'⟩ := v
      have := ih (pos + s.len) x' h' a' (pos + s.len - offset) x' h' a' le_rfl
      have hb : bytesOf (s :: rest) = s.len + bytesOf rest := by
        simp [bytesOf]
      show (fillLineAux width offset rest (pos + s.len) x' h' a'
        (pos + s.len - offset) x' h' a').1 ≤ pos - offset + bytesOf (s :: rest)
      omega

theorem fillAux_consumed_ge (width : ℚ) (offset : Nat) :
    ∀ (segs : List Seg) (pos : Nat) (x h a : ℚ) (e : Nat) (lx lh la : ℚ),
      e ≤ pos - offset →
      e ≤ (fillLineAux width offset segs pos x h a e lx lh la).1 := by
  intro segs
  induction segs with
  | nil => intro pos x h a e lx lh la _; exact le_rfl
  | cons s rest ih =>
    intro pos x h a e lx lh la he
    simp only [fillLineAux]
    rcases hpg : processGlyphs width lx s.glyphs x h a with _ | v
    · exact le_rfl
    · obtain ⟨x', h', a'⟩ := v
      have := ih (pos + s.len) x' h' a' (pos + s.len - offset) x' h' a' le_rfl
      show e ≤ (fillLineAux width offset rest (pos + s.len) x' h' a'
        (pos + s.len - offset) x' h' a').1
      omega

theorem fill_line_consumed_le (t : TextLayoutInfo) (width : ℚ) (offset : Nat) :
    (t.fill_line width offset).1 ≤ bytesOf t.text - offset := by
  have := fillAux_consumed_le width offset (segsFrom t.text offset) offset 0 0 0 0 0 0 0
    (by omega)
  rw [bytesOf_segsFrom] at this
  show (fillLineAux width offset (segsFrom t.text offset) offset 0 0 0 0 0 0 0).1 ≤ _
  omega

theorem processGlyphs_some_of_bounded (W lwX : ℚ) :
    ∀ (gs : List GlyphInfo) (x h a : ℚ), (∀ g ∈ gs, lwX + g.newX ≤ W) →
      ∃ v, processGlyphs W lwX gs x h a = some v := by
  intro gs
  induction gs with
  | nil => intro x h a _; exact ⟨(x, h, a), rfl⟩
  | cons g rest ih =>
    intro x h a hb
    have hg : ¬ W < lwX + g.newX := not_lt.mpr (hb g (List.mem_cons_self _ _))
    obtain ⟨v, hv⟩ := ih (lwX + g.newX) (max h g.lineHeight) (max a g.ascent)
      fun g' hg' => hb g' (List.mem_cons_of_mem _ hg')
    exact ⟨v, by simp [processGlyphs, if_neg hg, hv]⟩

/-- The well-formedness the termination argument needs: every segment
covers at least one byte, and no glyph extent exceeds the force-fit width
99999999. -/
def termWF (segs : List Seg) : Prop :=
  ∀ s ∈ segs, 1 ≤ s.len ∧ ∀ g ∈ s.glyphs, g.newX ≤ 99999999

theorem termWF_segsFrom :
    ∀ (segs : List Seg), termWF segs → ∀ (o : Nat), termWF (segsFrom segs o) := by
  intro segs
  induction segs with
  | nil => intro h o; cases o <;> simp [segsFrom, termWF]
  | cons s rest ih =>
    intro h o
    match o with
    | 0 => exact h
    | o + 1 =>
      simp only [segsFrom]
      by_cases hlt : o + 1 < s.len
      · rw [if_pos hlt]
        intro s' hs'
        rcases List.mem_cons.mp hs' with rfl | hmem
        · exact ⟨by show 1 ≤ s.len - (o + 1); omega, (h s (List.mem_cons_self _ _)).2⟩
        · exact h s' (List.mem_cons_of_mem _ hmem)
      · rw [if_neg hlt]
        exact ih (fun s' hs' => h s' (List.mem_cons_of_mem _ hs')) (o + 1 - s.len)

theorem segsFrom_ne_nil {segs : List Seg} {o : Nat} (h : o < bytesOf segs) :
    segsFrom segs o ≠ [] := by
  intro hcontra
  have hb := bytesOf_segsFrom segs o
  have h0 : bytesOf ([] : List Seg) = 0 := rfl
  rw [hcontra, h0] at hb
  omega

theorem fill_unbounded_progress (t : TextLayoutInfo) (o : Nat)
    (hterm : termWF t.text) (ho : o < bytesOf t.text) :
    1 ≤ (t.fill_line 99999999 o).1 := by
  rcases hsegs : segsFrom t.text o with _ | ⟨s₀, rest⟩
  · exact absurd hsegs (segsFrom_ne_nil ho)
  · have hterm' : termWF (s₀ :: rest) := hsegs ▸ termWF_segsFrom t.text hterm o
    obtain ⟨hlen, hbound⟩ := hterm' s₀ (List.mem_cons_self _ _)
    obtain ⟨v, hv⟩ := processGlyphs_some_of_bounded 99999999 0 s₀.glyphs 0 0 0
      fun g hg => by rw [zero_add]; exact hbound g hg
    obtain ⟨x', h', a'⟩ := v
    show 1 ≤ (fillLineAux 99999999 o (segsFrom t.text o) o 0 0 0 0 0 0 0).1
    rw [hsegs]
    simp only [fillLineAux, hv]
    have hge := fillAux_consumed_ge 99999999 o rest (o + s₀.len) x' h' a'
      (o + s₀.len - o) x' h' a' le_rfl
    omega

theorem apw_le (t : TextLayoutInfo) (o : Nat) (ho : o ≤ bytesOf t.text) :
    t.advance_past_whitespace o ≤ bytesOf t.text := by
  unfold TextLayoutInfo.advance_past_whitespace
  have h1 := leadingWsLen_le (segsFrom t.text o)
  have h2 := bytesOf_segsFrom t.text o
  omega

theorem bodyStep_progress (t : TextLayoutInfo) (index : Nat) (s : LineState) (offset : Nat)
    (hterm : termWF t.text) (ho : offset < bytesOf t.text) :
    offset < (inlineBodyStep t index s offset).2 ∧
    (inlineBodyStep t index s offset).2 ≤ bytesOf t.text := by
  have hle : offset ≤ bytesOf t.text := le_of_lt ho
  by_cases h1 : (t.fill_line (s.max_width - s.x) offset).1 = 0
  · have ho₁ : offset ≤ t.advance_past_whitespace offset := Nat.le_add_right _ _
    have ho₁' : t.advance_past_whitespace offset ≤ bytesOf t.text := apw_le t offset hle
    by_cases h2 : (t.fill_line s.max_width (t.advance_past_whitespace offset)).1 = 0
    · simp only [inlineBodyStep, if_pos h1, if_pos h2]
      by_cases ho₂ : t.advance_past_whitespace offset < bytesOf t.text
      · have hp := fill_unbounded_progress t (t.advance_past_whitespace offset) hterm ho₂
        have hc := fill_line_consumed_le t 99999999 (t.advance_past_whitespace offset)
        constructor
        · show offset < t.advance_past_whitespace offset + _
          omega
        · show t.advance_past_whitespace offset + _ ≤ _
          omega
      · have heq : t.advance_past_whitespace offset = bytesOf t.text := by omega
        have hc := fill_line_consumed_le t 99999999 (t.advance_past_whitespace offset)
        constructor
        · show offset < t.advance_past_whitespace offset + _
          omega
        · show t.advance_past_whitespace offset + _ ≤ _
          omega
    · simp only [inlineBodyStep, if_pos h1, if_neg h2]
      have hc := fill_line_consumed_le t s.max_width (t.advance_past_whitespace offset)
      constructor
      · show offset < t.advance_past_whitespace offset + _
        omega
      · show t.advance_past_whitespace offset + _ ≤ _
        omega
  · simp only [inlineBodyStep, if_neg h1]
    have hc := fill_line_consumed_le t (s.max_width - s.x) offset
    constructor
    · show offset < offset + _
      omega
    · show offset + _ ≤ _
      omega

theorem insertAux_consumes (t : TextLayoutInfo) (index : Nat) (hterm : termWF t.text) :
    ∀ (fuel : Nat) (offset : Nat) (s : LineState), offset ≤ bytesOf t.text →
      bytesOf t.text - offset < fuel →
      (insertInlineAux t index fuel s offset).2 = bytesOf t.text := by
  intro fuel
  induction fuel with
  | zero => intro offset s _ hf; omega
  | succ fuel ih =>
    intro offset s hle hf
    simp only [insertInlineAux]
    by_cases ho : offset < bytesOf t.text
    · rw [if_pos ho]
      obtain ⟨hgt, hub⟩ := bodyStep_progress t index s offset hterm ho
      exact ih _ _ hub (by omega)
    · rw [if_neg ho]
      omega

theorem insertAux_stable (t : TextLayoutInfo) (index : Nat) (hterm : termWF t.text) :
    ∀ (fuel₁ fuel₂ : Nat) (offset : Nat) (s : LineState), offset ≤ bytesOf t.text →
      bytesOf t.text - offset < fuel₁ → bytesOf t.text - offset < fuel₂ →
      insertInlineAux t index fuel₁ s offset = insertInlineAux t index fuel₂ s offset := by
  intro fuel₁
  induction fuel₁ with
  | zero => intro fuel₂ offset s _ hf _; omega
  | succ fuel₁ ih =>
    intro fuel₂ offset s hle hf₁ hf₂
    match fuel₂ with
    | 0 => omega
    | fuel₂ + 1 =>
      simp only [insertInlineAux]
      by_cases ho : offset < bytesOf t.text
      · rw [if_pos ho, if_pos ho]
        obtain ⟨hgt, hub⟩ := bodyStep_progress t index s offset hterm ho
        exact ih _ _ _ hub (by omega) (by omega)
      · rw [if_neg ho, if_neg ho]

/-- The overflow fixture: a 4-byte word of extent 50, a space, and a
3-byte word of extent 20, to be packed into a line of width 10. -/
def overflowText : TextLayoutInfo := ⟨[wordSeg 4 50, spaceSeg, wordSeg 3 20], 14, 10⟩

/-- C9 fails in part: with line width 10, the 50-wide first word triggers
the force-fit against width 99999999 — but that fit greedily consumes the
*entire* remaining text ("word space word", width 50 + 5 + 20 = 75), so
the oversized word is not placed alone and the remaining text does not
resume on the next line: the layout has exactly one child, a single
fragment of width 75 (which would be 50 if the word were alone, with a
second child for the rest). -/
theorem c9_force_fit_counterexample :
    ((layout_inline 10 [.Text 0 overflowText]).children.map fun c => c.layout.size.width)
      = [75] ∧
    (layout_inline 10 [.Text 0 overflowText]).children.length = 1 ∧
    ¬ (75 : ℚ) ≤ 10 ∧ (75 : ℚ) ≠ 50 := by
  refine ⟨?_, ?_, by norm_num, by norm_num⟩
  · norm_num [layout_inline, LineState.insert_inline_item, insertInlineAux, inlineBodyStep,
      pushFragment, TextLayoutInfo.fill_line, TextLayoutInfo.advance_past_whitespace,
      fillLineAux, processGlyphs, segsFrom, leadingWsLen, bytesOf,
      LineState.carriage_return, initialLineState, overflowText, wordSeg, spaceSeg]
  · norm_num [layout_inline, LineState.insert_inline_item, insertInlineAux, inlineBodyStep,
      pushFragment, TextLayoutInfo.fill_line, TextLayoutInfo.advance_past_whitespace,
      fillLineAux, processGlyphs, segsFrom, leadingWsLen, bytesOf,
      LineState.carriage_return, initialLineState, overflowText, wordSeg, spaceSeg]

/-- C9 as amended: for well-formed text (non-empty segments, glyph extents
within the force-fit budget 99999999) the per-item packing loop terminates:
every iteration taken below the text's end strictly advances the offset
while keeping it within the text, the result is independent of any
sufficient fuel bound (no infinite loop), and the loop consumes the whole
item. The force-fit at width 99999999, however, greedily consumes the
oversized word *and* every following word of the item that fits that
width onto the same overflow line, rather than placing the word alone with
the rest resuming on the next line. -/
theorem c9_inline_loop_terminates (t : TextLayoutInfo) (index : Nat)
    (hterm : termWF t.text) :
    (∀ (s : LineState) (offset : Nat), offset < bytesOf t.text →
      offset < (inlineBodyStep t index s offset).2 ∧
      (inlineBodyStep t index s offset).2 ≤ bytesOf t.text) ∧
    (∀ (fuel : Nat) (s : LineState), bytesOf t.text < fuel →
      insertInlineAux t index fuel s 0 =
        insertInlineAux t index (bytesOf t.text + 1) s 0) ∧
    (∀ s : LineState,
      (insertInlineAux t index (bytesOf t.text + 1) s 0).2 = bytesOf t.text) ∧
    (∀ s : LineState, s.insert_inline_item index t =
      (insertInlineAux t index (bytesOf t.text + 1) s 0).1) := by
  refine ⟨fun s offset ho => bodyStep_progress t index s offset hterm ho, ?_, ?_, fun s => rfl⟩
  · intro fuel s hf
    exact insertAux_stable t index hterm fuel (bytesOf t.text + 1) 0 s (Nat.zero_le _)
      (by omega) (by omega)
  · intro s
    exact insertAux_consumes t index hterm (bytesOf t.text + 1) 0 s (Nat.zero_le _) (by omega)

/-- Witness for the amended C9 at the overflow fixture: the loop consumes
all 8 bytes of the item, including the force-fitted oversized word. -/
theorem c9_inline_loop_terminates_witness :
    termWF overflowText.text ∧
    (insertInlineAux overflowText 0 (bytesOf overflowText.text + 1)
      (initialLineState 10) 0).2 = bytesOf overflowText.text := by
  have hterm : termWF overflowText.text := by
    intro s hs
    have hs' : s = wordSeg 4 50 ∨ s = spaceSeg ∨ s = wordSeg 3 20 := by
      simpa [overflowText] using hs
    rcases hs' with rfl | rfl | rfl
    · refine ⟨by norm_num [wordSeg], ?_⟩
      intro g hg
      rw [List.mem_singleton.mp hg]
      show (50 : ℚ) ≤ 99999999
      norm_num
    · refine ⟨by norm_num [spaceSeg], ?_⟩
      intro g hg
      rw [List.mem_singleton.mp hg]
      show (5 : ℚ) ≤ 99999999
      norm_num
    · refine ⟨by norm_num [wordSeg], ?_⟩
      intro g hg
      rw [List.mem_singleton.mp hg]
      show (20 : ℚ) ≤ 99999999
      norm_num
  exact ⟨hterm,
    (c9_inline_loop_terminates overflowText 0 hterm).2.2.1 (initialLineState 10)⟩

end MoxieLayout
